import Mathlib

/-!
# go_app: arithmetic HTTP service with a TTL cache

A shallow embedding of `app.go`.

* `F64` is an exact model of Go's `float64` (IEEE-754 binary64, round to nearest,
  ties to even), with the operations the program uses: `+ - * /`, `==` and `math.Round`.
* `RoundResult`, `Add`, `Subtract`, `Multiply`, `Divide` and `GenerateKey` are the
  functions of `app.go`.
-/

namespace GoApp

/-! ## float64 -/

/-- A `float64` value. `fin neg m ex` denotes `(-1)^neg * m * 2^(ex - 1074)`; the canonical
form of a finite value has `m < 2^53`, `ex ≤ 2045`, and `ex = 0` whenever `m < 2^52`
(zeros and subnormals). `fin true 0 0` is the negative zero. -/
inductive F64 where
  | nan : F64
  | inf (neg : Bool) : F64
  | fin (neg : Bool) (m : Nat) (ex : Nat) : F64
deriving DecidableEq, Repr

namespace F64

/-- Binary logarithm rounded down (`0` at `0`), by structural recursion on the fuel. -/
def log2F : Nat → Nat → Nat
  | 0, _ => 0
  | fuel + 1, n =>
    if n < 2 then 0
    else if n < 2 ^ 64 then log2F fuel (n / 2) + 1
    else log2F fuel (n / 2 ^ 64) + 64

/-- Position of the leading bit of `n`. -/
def ilog2 (n : Nat) : Nat := log2F n n

/-- The integer nearest to `N / D`, the even one of the two when `N / D` lies halfway. -/
def nearestEven (N D : Nat) : Nat :=
  let q := N / D
  if (2 * q + 1) * D < 2 * N ∨ ((2 * q + 1) * D = 2 * N ∧ q % 2 = 1) then q + 1 else q

/-- The `float64` nearest to the rational `± n / d` (`d ≠ 0`), ties to even, overflowing to
the infinity of the same sign. This is the rounding step of every IEEE-754 operation. -/
def roundQ (neg : Bool) (n d : Nat) : F64 :=
  let N := n * 2 ^ 1074
  let ex := ilog2 (N / d) - 52
  let m := nearestEven N (d * 2 ^ ex)
  let ex2 := if m = 2 ^ 53 then ex + 1 else ex
  let m2 := if m = 2 ^ 53 then 2 ^ 52 else m
  if 2045 < ex2 then inf neg else fin neg m2 ex2

/-- The mantissa of a finite value, 0 otherwise. -/
def mant : F64 → Nat
  | fin _ m _ => m
  | _ => 0

/-- The exponent of a finite value, 0 otherwise. -/
def expo : F64 → Nat
  | fin _ _ ex => ex
  | _ => 0

/-- The canonical form of a float64 value: a mantissa below `2^53`, an exponent of at
most 2045, and the exponent 0 for a mantissa below `2^52`. -/
def Canon (x : F64) : Prop :=
  x.mant < 2 ^ 53 ∧ x.expo ≤ 2045 ∧ (x.mant < 2 ^ 52 → x.expo = 0)

instance : DecidablePred Canon := fun x =>
  inferInstanceAs (Decidable (x.mant < 2 ^ 53 ∧ x.expo ≤ 2045 ∧ (x.mant < 2 ^ 52 → x.expo = 0)))

/-- The float64 nearest to the decimal `mant * 10^(-scale)`, as a Go constant is converted. -/
def ofDec (neg : Bool) (mant scale : Nat) : F64 := roundQ neg mant (10 ^ scale)

/-- The float64 of a natural number constant. -/
def ofNat (n : Nat) : F64 := roundQ false n 1

/-- Whether the value is neither a NaN nor an infinity. -/
def isFinite : F64 → Bool
  | fin _ _ _ => true
  | _ => false

/-- Go `-x`. -/
def neg : F64 → F64
  | nan => nan
  | inf s => inf (!s)
  | fin s m ex => fin (!s) m ex

/-- Go `x + y` on float64. -/
def add : F64 → F64 → F64
  | nan, _ => nan
  | _, nan => nan
  | inf a, inf b => if a = b then inf a else nan
  | inf a, fin _ _ _ => inf a
  | fin _ _ _, inf b => inf b
  | fin a ma ea, fin b mb eb =>
    let A := ma * 2 ^ ea
    let B := mb * 2 ^ eb
    if a = b then roundQ a (A + B) (2 ^ 1074)
    else if B < A then roundQ a (A - B) (2 ^ 1074)
    else if A < B then roundQ b (B - A) (2 ^ 1074)
    else fin false 0 0

/-- Go `x - y` on float64. -/
def sub (x y : F64) : F64 := add x (neg y)

/-- Go `x * y` on float64. -/
def mul : F64 → F64 → F64
  | nan, _ => nan
  | _, nan => nan
  | inf a, inf b => inf (xor a b)
  | inf a, fin b m _ => if m = 0 then nan else inf (xor a b)
  | fin a m _, inf b => if m = 0 then nan else inf (xor a b)
  | fin a ma ea, fin b mb eb =>
    roundQ (xor a b) (ma * 2 ^ ea * (mb * 2 ^ eb)) (2 ^ 1074 * 2 ^ 1074)

/-- Go `x / y` on float64. -/
def div : F64 → F64 → F64
  | nan, _ => nan
  | _, nan => nan
  | inf _, inf _ => nan
  | inf a, fin b _ _ => inf (xor a b)
  | fin a _ _, inf b => fin (xor a b) 0 0
  | fin a ma ea, fin b mb eb =>
    if mb = 0 then (if ma = 0 then nan else inf (xor a b))
    else roundQ (xor a b) (ma * 2 ^ ea) (mb * 2 ^ eb)

/-- The integer nearest to `m * 2^(ex - 1074)`, the larger one when two are equally near:
the value plus one half, rounded down. -/
def nearestInt (m ex : Nat) : Nat := (m * 2 ^ ex + 2 ^ 1073) / 2 ^ 1074

/-- Go `math.Round`: the nearest integer, halfway cases away from zero; zeros, infinities
and NaN are returned unchanged. -/
def round : F64 → F64
  | nan => nan
  | inf s => inf s
  | fin s m ex => roundQ s (nearestInt m ex) 1

/-- The numerator of the magnitude of a finite value over `2^1074`; 0 otherwise. -/
def num : F64 → Nat
  | fin _ m ex => m * 2 ^ ex
  | _ => 0

/-- Go `x == y` on float64: NaN equals nothing, the two zeros are equal. -/
def eq : F64 → F64 → Bool
  | fin a ma ea, fin b mb eb => (ma = 0 && mb = 0) || (a = b && ma = mb && ea = eb)
  | inf a, inf b => a = b
  | _, _ => false

/-- Go `x == 0`. -/
def isZero (x : F64) : Bool := eq x (fin false 0 0)

end F64

/-! ## strconv: reading a float64 -/

/-- The character of a decimal digit, Go `byte(d) + '0'`. -/
def digitChar (d : Nat) : Char := Char.ofNat (d + 48)

/-- The value of a decimal digit character. -/
def digitVal (c : Char) : Nat := c.toNat - 48

/-- The number spelled by a run of digits after the digits of `acc`. -/
def ofDigits (acc : Nat) (cs : List Char) : Nat :=
  cs.foldl (fun a c => a * 10 + digitVal c) acc

/-- The value of a hexadecimal letter `a`..`f` or `A`..`F`. -/
def hexLetter (c : Char) : Option Nat :=
  if 97 ≤ c.toNat ∧ c.toNat ≤ 102 then some (c.toNat - 87)
  else if 65 ≤ c.toNat ∧ c.toNat ≤ 70 then some (c.toNat - 55)
  else none

/-- ASCII lower-casing of `A`..`Z`, as in `commonPrefixLenIgnoreCase`. -/
def lowerASCII (c : Char) : Char :=
  if 65 ≤ c.toNat ∧ c.toNat ≤ 90 then Char.ofNat (c.toNat + 32) else c

/-- Length of the common start of `s` and the lower-case word `w`, ignoring the case of `s`. -/
def commonLenIgnoreCase : List Char → List Char → Nat
  | c :: s, p :: w => if lowerASCII c = p then commonLenIgnoreCase s w + 1 else 0
  | _, _ => 0

/-- The body of `special` after an optional sign: `inf` or `infinity` in any case;
the result is the number of characters read. -/
def specialInf (s : List Char) : Option Nat :=
  let n := commonLenIgnoreCase s "infinity".toList
  let n := if 3 < n ∧ n < 8 then 3 else n
  if n = 3 ∨ n = 8 then some n else none

/-- Function `strconv.special`: the spellings of the infinities and of NaN, with the number of
characters read. -/
def special (s : List Char) : Option (F64 × Nat) :=
  match s with
  | [] => none
  | c :: cs =>
    if c = '+' then (specialInf cs).map (fun n => (F64.inf false, n + 1))
    else if c = '-' then (specialInf cs).map (fun n => (F64.inf true, n + 1))
    else if c = 'i' ∨ c = 'I' then (specialInf s).map (fun n => (F64.inf false, n))
    else if c = 'n' ∨ c = 'N' then
      if commonLenIgnoreCase s "nan".toList = 3 then some (F64.nan, 3) else none
    else none

/-- State of the mantissa loop of `readFloat`: `mant` is the number spelled by the digits
read so far, `frac` counts the digits read after the point. -/
structure Scan where
  mant : Nat
  frac : Nat
  sawdot : Bool
  sawdigits : Bool
  underscores : Bool
deriving DecidableEq, Repr

/-- The mantissa loop of `readFloat`: digits, underscores and at most one point. -/
def scanMant (hex : Bool) : List Char → Scan → Scan × List Char
  | [], st => (st, [])
  | c :: cs, st =>
    if c = '_' then scanMant hex cs { st with underscores := true }
    else if c = '.' then
      if st.sawdot then (st, c :: cs) else scanMant hex cs { st with sawdot := true }
    else if c.isDigit then
      scanMant hex cs { st with
        sawdigits := true
        mant := st.mant * (if hex then 16 else 10) + digitVal c
        frac := if st.sawdot then st.frac + 1 else st.frac }
    else
      match (if hex then hexLetter c else none) with
      | some v =>
        scanMant hex cs { st with
          sawdigits := true
          mant := st.mant * 16 + v
          frac := if st.sawdot then st.frac + 1 else st.frac }
      | none => (st, c :: cs)

/-- The exponent loop of `readFloat`: digits and underscores; the exponent stops growing
once it has reached 10000. -/
def scanExp : List Char → Nat → Bool → Nat × Bool × List Char
  | [], e, u => (e, u, [])
  | c :: cs, e, u =>
    if c = '_' then scanExp cs e true
    else if c.isDigit then scanExp cs (if e < 10000 then e * 10 + digitVal c else e) u
    else (e, u, c :: cs)

/-- The loop of `underscoreOK`; `saw` is 0 at the start, 1 after a digit or the base
marker, 2 after an underscore and 3 after anything else. -/
def underscoreLoop (hex : Bool) : List Char → Nat → Bool
  | [], saw => saw != 2
  | c :: cs, saw =>
    if c.isDigit ∨ (hex ∧ (hexLetter c).isSome) then underscoreLoop hex cs 1
    else if c = '_' then (if saw != 1 then false else underscoreLoop hex cs 2)
    else if saw = 2 then false
    else underscoreLoop hex cs 3

/-- Whether `c` is `b`, `o` or `x` in either case. -/
def isBaseLetter (c : Char) : Bool :=
  c = 'b' ∨ c = 'B' ∨ c = 'o' ∨ c = 'O' ∨ c = 'x' ∨ c = 'X'

/-- Function `strconv.underscoreOK`: an underscore only between digits, or between a base marker
and a digit. -/
def underscoreOK (s : List Char) : Bool :=
  let s := match s with
    | c :: cs => if c = '-' ∨ c = '+' then cs else s
    | [] => s
  match s with
  | c0 :: c1 :: cs =>
    if c0 = '0' ∧ isBaseLetter c1 then underscoreLoop (c1 = 'x' ∨ c1 = 'X') cs 1
    else underscoreLoop false s 0
  | _ => underscoreLoop false s 0

/-- What `readFloat` reads: sign, base, mantissa and the exponent of the base
(10, or 2 for a hexadecimal mantissa). -/
structure Lit where
  neg : Bool
  hex : Bool
  mant : Nat
  exp : Int
deriving DecidableEq, Repr

/-- The optional exponent of `readFloat`: after the exponent letter an optional sign and
at least one digit. The result holds the exponent, the underscore flag and the rest. -/
def readExp (cs : List Char) : Option (Int × Bool × List Char) :=
  match cs with
  | [] => none
  | c :: cs1 =>
    let body := if c = '+' ∨ c = '-' then cs1 else cs
    match body with
    | [] => none
    | d :: _ =>
      if d.isDigit then
        let r := scanExp body 0 false
        some (if c = '-' then - (r.1 : Int) else (r.1 : Int), r.2.1, r.2.2)
      else none

/-- Whether the number starts with the marker `0x` or `0X` of a hexadecimal mantissa, with
at least one more character after it. -/
def hexStart : List Char → Bool
  | c0 :: c1 :: _ :: _ => c0 = '0' ∧ (c1 = 'x' ∨ c1 = 'X')
  | _ => false

/-- The number after the optional sign in `readFloat`. All of the text has to be read,
as `ParseFloat` demands. -/
def readUnsigned (neg : Bool) (s : List Char) (whole : List Char) : Option Lit :=
  let hex : Bool := hexStart s
  let body := if hex then s.drop 2 else s
  let r := scanMant hex body ⟨0, 0, false, false, false⟩
  let st := r.1
  if ¬ st.sawdigits then none
  else
    let scale : Int := if hex then 4 * (st.frac : Int) else (st.frac : Int)
    match r.2 with
    | [] =>
      if hex then none
      else if st.underscores ∧ ¬ underscoreOK whole then none
      else some ⟨neg, hex, st.mant, - scale⟩
    | c :: cs =>
      if (¬ hex ∧ (c = 'e' ∨ c = 'E')) ∨ (hex ∧ (c = 'p' ∨ c = 'P')) then
        match readExp cs with
        | some (e, u, []) =>
          if (st.underscores ∨ u) ∧ ¬ underscoreOK whole then none
          else some ⟨neg, hex, st.mant, e - scale⟩
        | _ => none
      else none

/-- Function `strconv.readFloat`, for a text that is read to its end. -/
def readFloat (s : List Char) : Option Lit :=
  match s with
  | [] => none
  | c :: cs =>
    if c = '+' then readUnsigned false cs s
    else if c = '-' then readUnsigned true cs s
    else readUnsigned false s s

/-- The float64 nearest to `± mant * base^exp`. -/
def Lit.toF64 (l : Lit) : F64 :=
  let b : Nat := if l.hex then 2 else 10
  if 0 ≤ l.exp then F64.roundQ l.neg (l.mant * b ^ l.exp.toNat) 1
  else F64.roundQ l.neg l.mant (b ^ (- l.exp).toNat)

/-- Function `strconv.ParseFloat(s, 64)`; `none` stands for a non-nil error (a syntax error, or
a range error when the nearest float64 is an infinity). -/
def ParseFloat (s : String) : Option F64 :=
  match special s.toList with
  | some (v, n) => if n = s.toList.length then some v else none
  | none =>
    match readFloat s.toList with
    | none => none
    | some l =>
      match l.toF64 with
      | F64.fin neg m ex => some (F64.fin neg m ex)
      | _ => none

/-! ## strconv: writing a float64 -/

/-- The decimal digits of `n`, most significant first; none for zero. -/
def digitsF : Nat → Nat → List Char
  | 0, _ => []
  | fuel + 1, n => if n = 0 then [] else digitsF fuel (n / 10) ++ [digitChar (n % 10)]

/-- The decimal digits of `n`. -/
def natDigits (n : Nat) : List Char := digitsF n n

/-- Removes the trailing zero digits of `c * 10^e`. -/
def stripZeros : Nat → Nat → Int → Nat × Int
  | 0, c, e => (c, e)
  | fuel + 1, c, e =>
    if c ≠ 0 ∧ c % 10 = 0 then stripZeros fuel (c / 10) (e + 1) else (c, e)

/-- A decimal `c * 10^e10` without trailing zeros. -/
def normDec (c : Nat) (e : Int) : Lit :=
  let r := stripZeros c c e
  ⟨false, false, r.1, r.2⟩

/-- The least `dp` from the start value on with `A / 2^1074 < 10^dp`. -/
def findPoint (A : Nat) : Nat → Int → Int
  | 0, dp => dp
  | fuel + 1, dp =>
    if (if 0 ≤ dp then A < 10 ^ dp.toNat * 2 ^ 1074 else A * 10 ^ (- dp).toNat < 2 ^ 1074)
    then dp else findPoint A fuel (dp + 1)

/-- The position of the decimal point of `A / 2^1074`: the number of its integer digits,
or minus the number of zeros after the point. -/
def decPoint (A : Nat) : Int := findPoint A 640 (-330)

/-- The two decimals of `nd` digits around `A / 2^1074`, and the one `strconv` chooses:
one that reads back as the float64 `fin neg m ex`, the nearer one when both do
(the even one when they are equally near). -/
def tryDigits (neg : Bool) (m ex A : Nat) (dp : Int) (nd : Nat) : Option Lit :=
  let k : Int := (nd : Int) - dp
  let num := if 0 ≤ k then A * 10 ^ k.toNat else A
  let den := if 0 ≤ k then 2 ^ 1074 else 2 ^ 1074 * 10 ^ (- k).toNat
  let lo := num / den
  let r := num % den
  let down := { normDec lo (- k) with neg := neg }
  let up := { normDec (lo + 1) (- k) with neg := neg }
  let okdown : Bool := down.toF64 = F64.fin neg m ex
  let okup : Bool := up.toF64 = F64.fin neg m ex
  if okdown ∧ okup then
    some (if 2 * r < den then down else if den < 2 * r then up
      else if lo % 2 = 0 then down else up)
  else if okdown then some down
  else if okup then some up
  else none

/-- The first number of digits, from `nd` on, at which `tryDigits` succeeds. -/
def searchDigits (neg : Bool) (m ex A : Nat) (dp : Int) : Nat → Nat → Option Lit
  | 0, _ => none
  | fuel + 1, nd =>
    match tryDigits neg m ex A dp nd with
    | some d => some d
    | none => searchDigits neg m ex A dp fuel (nd + 1)

/-- The exact decimal expansion of `m * 2^(ex - 1074)`. -/
def exactDec (neg : Bool) (m ex : Nat) : Lit :=
  if 1074 ≤ ex then ⟨neg, false, m * 2 ^ (ex - 1074), 0⟩
  else ⟨neg, false, m * 5 ^ (1074 - ex), - ((1074 - ex : Nat) : Int)⟩

/-- The shortest decimal that reads back as `fin neg m ex` (`m ≠ 0`), as computed by
`strconv` for precision `-1`; the search through the digits of the exact expansion ends
at the latest with the expansion itself. -/
def shortest (neg : Bool) (m ex : Nat) : Lit :=
  (searchDigits neg m ex (m * 2 ^ ex) (decPoint (m * 2 ^ ex)) 17 1).getD (exactDec neg m ex)

/-- The digits and the decimal point of `strconv` (`decimalSlice`): the value is
`0.d₁d₂… * 10^dp`. -/
structure Digits where
  ds : List Char
  dp : Int
deriving DecidableEq, Repr

/-- The digits of the shortest decimal of a finite float64; zero has no digits. -/
def digitsOf (neg : Bool) (m ex : Nat) : Digits :=
  if m = 0 then ⟨[], 0⟩
  else
    let l := shortest neg m ex
    ⟨natDigits l.mant, l.exp + (natDigits l.mant).length⟩

/-- The exponent digits of `%e`: at least two, or as many as needed when `pad` is off. -/
def expDigits (pad : Bool) (e : Nat) : List Char :=
  if e < 10 then (if pad then ['0', digitChar e] else [digitChar e])
  else if e < 100 then [digitChar (e / 10), digitChar (e % 10)]
  else [digitChar (e / 100), digitChar (e / 10 % 10), digitChar (e % 10)]

/-- The sign written in front of a number. -/
def signChars (neg : Bool) : List Char := if neg then ['-'] else []

/-- Function `strconv.fmtE` at the shortest precision: `d.ddde±dd`. -/
def fmtE (pad neg : Bool) (d : Digits) : List Char :=
  let e : Int := if d.ds = [] then 0 else d.dp - 1
  signChars neg ++ d.ds.headD '0' :: (if d.ds.tail = [] then [] else '.' :: d.ds.tail)
    ++ 'e' :: (if e < 0 then '-' else '+') :: expDigits pad e.natAbs

/-- Function `strconv.fmtF` at the shortest precision: `ddd.ddd`. -/
def fmtF (neg : Bool) (d : Digits) : List Char :=
  signChars neg
    ++ (if 0 < d.dp then d.ds.take d.dp.toNat ++ List.replicate (d.dp.toNat - d.ds.length) '0'
        else ['0'])
    ++ (if d.dp < d.ds.length
        then '.' :: (List.replicate (- d.dp).toNat '0' ++ d.ds.drop d.dp.toNat) else [])

/-- Function `fmt.Sprintf("%v", x)` for a float64: `%g` with the shortest precision, the exponent
form when the decimal exponent is below -4 or at least 6. -/
def fmtV : F64 → String
  | F64.nan => "NaN"
  | F64.inf neg => if neg then "-Inf" else "+Inf"
  | F64.fin neg m ex =>
    let d := digitsOf neg m ex
    String.mk (if d.dp - 1 < -4 ∨ 6 ≤ d.dp - 1 then fmtE true neg d else fmtF neg d)

/-- Whether `|x| < |y|` for finite values. -/
def magLt : F64 → F64 → Bool
  | F64.fin _ ma ea, F64.fin _ mb eb => ma * 2 ^ ea < mb * 2 ^ eb
  | _, _ => false

/-- The JSON text of a float64 in `encoding/json`: none for NaN and the infinities
(`UnsupportedValueError`); the exponent form below `1e-6` and from `1e21` on, with an
unpadded exponent. -/
def jsonFloat : F64 → Option String
  | F64.fin neg m ex =>
    let d := digitsOf neg m ex
    let x := F64.fin neg m ex
    some (String.mk (if m ≠ 0 ∧ (magLt x (F64.ofDec false 1 6) ∨ ¬ magLt x (F64.ofNat (10 ^ 21)))
      then fmtE false neg d else fmtF neg d))
  | _ => none

/-! ## The arithmetic module of `app.go` -/

/-- Function `RoundResult` of `app.go`: `math.Round(result*100)/100`. -/
def RoundResult (result : F64) : F64 :=
  F64.div (F64.round (F64.mul result (F64.ofNat 100))) (F64.ofNat 100)

/-- Function `Add` of `app.go`: `RoundResult(x + y)`. -/
def Add (x y : F64) : F64 := RoundResult (F64.add x y)

/-- Function `Subtract` of `app.go`: `RoundResult(x - y)`. -/
def Subtract (x y : F64) : F64 := RoundResult (F64.sub x y)

/-- Function `Multiply` of `app.go`: `RoundResult(x * y)`. -/
def Multiply (x y : F64) : F64 := RoundResult (F64.mul x y)

/-- Function `Divide` of `app.go`: `RoundResult(x / y)`; the caller is to keep a zero
divisor away. -/
def Divide (x y : F64) : F64 := RoundResult (F64.div x y)

/-- The characters of a decimal number as written by `fmtE` and `fmtF`. -/
def Plain (s : List Char) : Prop :=
  ∀ c ∈ s, c.isDigit = true ∨ c = '.' ∨ c = 'e' ∨ c = '+' ∨ c = '-'

/-- What the search for the shortest decimal promises of its result. -/
def ReadsBack (neg : Bool) (m ex : Nat) (l : Lit) : Prop :=
  l.toF64 = F64.fin neg m ex ∧ l.neg = neg ∧ l.hex = false

/-! ## The response record and its cache key -/

/-- Constant `cacheTTL`: 60 seconds, in nanoseconds as a `time.Duration`. -/
def cacheTTL : Int := 60 * 1000000000

/-- Constant `actionAdd`. -/
def actionAdd : String := "add"

/-- Constant `actionSubtract`. -/
def actionSubtract : String := "subtract"

/-- Constant `actionMultiply`. -/
def actionMultiply : String := "multiply"

/-- Constant `actionDivide`. -/
def actionDivide : String := "divide"

/-- Type `ResponseData` of `app.go`: the fields of a response. -/
structure ResponseData where
  Action : String
  X : F64
  Y : F64
  Answer : F64
  Cached : Bool
deriving DecidableEq, Repr

/-- Method `ResponseData.GenerateKey`: `%v` of X, the action and `%v` of Y, joined by colons. -/
def ResponseData.GenerateKey (r : ResponseData) : String :=
  fmtV r.X ++ ":" ++ r.Action ++ ":" ++ fmtV r.Y

/-- The three numbers of the record are float64 values in canonical form. -/
def ResponseData.Canon (r : ResponseData) : Prop :=
  r.X.Canon ∧ r.Y.Canon ∧ r.Answer.Canon

/-- The three numbers of the record are finite. -/
def ResponseData.Finite (r : ResponseData) : Prop :=
  r.X.isFinite = true ∧ r.Y.isFinite = true ∧ r.Answer.isFinite = true

/-- The cache key of an action and two operands, as `GenerateKey` builds it. -/
def keyOf (action : String) (x y : F64) : String :=
  fmtV x ++ ":" ++ action ++ ":" ++ fmtV y

/-- The record a handler builds on a cache miss: the operands, the computed answer, and
`Cached` false. -/
def fresh (action : String) (f : F64 → F64 → F64) (x y : F64) : ResponseData :=
  ⟨action, x, y, f x y, false⟩

/-! ## encoding/json on `ResponseData` -/

/-- The JSON object that `json.Marshal` writes for a `ResponseData`: its five members in
the order of the fields, the numbers as the text of their literals. -/
structure JsonObject where
  Action : String
  X : String
  Y : String
  Answer : String
  Cached : Bool
deriving DecidableEq, Repr

/-- Function `json.Marshal` on a `ResponseData`; `none` is the error for a NaN or an infinity. -/
def jsonMarshal (r : ResponseData) : Option JsonObject :=
  match jsonFloat r.X, jsonFloat r.Y, jsonFloat r.Answer with
  | some x, some y, some a => some ⟨r.Action, x, y, a, r.Cached⟩
  | _, _, _ => none

/-- The float64 of a JSON number literal; JSON has no literal for a NaN or an infinity,
and a literal out of range is an error. -/
def jsonNumber (t : String) : Option F64 :=
  match ParseFloat t with
  | some (F64.fin neg m ex) => some (F64.fin neg m ex)
  | _ => none

/-- Function `json.Unmarshal` of such an object into a `ResponseData`: every field is overwritten;
`none` is an error. -/
def jsonUnmarshal (b : JsonObject) : Option ResponseData :=
  match jsonNumber b.X, jsonNumber b.Y, jsonNumber b.Answer with
  | some x, some y, some a => some ⟨b.Action, x, y, a, b.Cached⟩
  | _, _, _ => none

/-! ## The cache -/

/-- A value held by the cache client as an `interface{}`: a byte slice holding a JSON
object, or a value of another type (`tag` tells such values apart). -/
inductive Object where
  | bytes (b : JsonObject) : Object
  | other (tag : Nat) : Object
deriving DecidableEq, Repr

/-- An item of the cache client: the value and the time (in nanoseconds) after which it
has expired; an item with `Expiration ≤ 0` never expires. -/
structure Item where
  Object : Object
  Expiration : Int
deriving DecidableEq, Repr

/-- Modelled from the spec: the cache client `github.com/patrickmn/go-cache`, which is
imported by `app.go` and is not part of the repository. It maps keys to items and has a
default time to live. -/
structure Client where
  defaultExpiration : Int
  items : String → Option Item

/-- Modelled from the spec: `Set` of the cache client stores the value with an absolute
expiration at now + ttl (the default time to live for a ttl of 0, no expiration for a
negative one), replacing the item of the key. -/
def Client.Set (c : Client) (now : Nat) (k : String) (x : Object) (d : Int) : Client :=
  let d := if d = 0 then c.defaultExpiration else d
  let e : Int := if 0 < d then (now : Int) + d else 0
  { c with items := fun k2 => if k2 = k then some ⟨x, e⟩ else c.items k2 }

/-- Modelled from the spec: `Get` of the cache client returns the value of the key unless
the key was never set or its item has expired, that is unless the time now is later than
its expiration. -/
def Client.Get (c : Client) (now : Nat) (k : String) : Option Object :=
  match c.items k with
  | none => none
  | some item =>
    if 0 < item.Expiration ∧ item.Expiration < (now : Int) then none else some item.Object

/-- Type `AppCache` of `app.go`: the cache client. -/
structure AppCache where
  client : Client

/-- Function `InitCache`: an empty client with a default time to live of five minutes. -/
def InitCache : AppCache := ⟨⟨5 * 60 * 1000000000, fun _ => none⟩⟩

/-- Method `AppCache.Get`: `(nil, nil)` is `ok none`, a value that is not a byte slice is the
error. -/
def AppCache.Get (r : AppCache) (now : Nat) (key : String) : Except String (Option JsonObject) :=
  match r.client.Get now key with
  | none => Except.ok none
  | some (Object.bytes b) => Except.ok (some b)
  | some (Object.other _) => Except.error "Format is not arr of bytes"

/-- Method `AppCache.Set`: marshals the data and stores the bytes; an error of `json.Marshal` is
returned and nothing is stored. -/
def AppCache.Set (r : AppCache) (now : Nat) (key : String) (data : ResponseData)
    (expiration : Int) : Except String AppCache :=
  match jsonMarshal data with
  | none => Except.error "json: unsupported value"
  | some b => Except.ok ⟨r.client.Set now key (Object.bytes b) expiration⟩

/-! ## The handlers -/

/-- How a handler ends: a response of status 200 with a JSON body, a response of status
400, or the end of the process in `log.Fatal`. -/
inductive Outcome where
  | ok (body : JsonObject) : Outcome
  | badRequest (msg : String) : Outcome
  | fatal : Outcome
deriving DecidableEq, Repr

/-- The state of the process: the cache `cacheDatabase` and the response record `resp`. -/
structure State where
  cache : AppCache
  resp : ResponseData

/-- A call of one of the four arithmetic functions. -/
structure Call where
  action : String
  x : F64
  y : F64
deriving DecidableEq, Repr

/-- What a handler does: the state it leaves, how it ends and the arithmetic calls it
made. -/
structure Result where
  state : State
  outcome : Outcome
  calls : List Call

/-- The state after `InitCache`, `resp` being the zero value. -/
def initState : State :=
  ⟨InitCache, ⟨"", F64.fin false 0 0, F64.fin false 0 0, F64.fin false 0 0, false⟩⟩

/-- The part shared by the four handlers, after the operands are parsed (lines 140-187 of
`addHandler`, the same in the others up to the action and the function): look the key
up, answer from the cache on a hit, compute and store on a miss. `tGet` and `tSet` are
the times at which the cache reads the clock in `Get` and in `Set`. -/
def serve (action : String) (f : F64 → F64 → F64) (st : State) (x y : F64)
    (tGet tSet : Nat) : Result :=
  let resp : ResponseData := { st.resp with X := x, Y := y, Action := action, Cached := false }
  let key := resp.GenerateKey
  match st.cache.Get tGet key with
  | Except.error _ => ⟨⟨st.cache, resp⟩, Outcome.fatal, []⟩
  | Except.ok (some b) =>
    match jsonUnmarshal b with
    | none => ⟨⟨st.cache, resp⟩, Outcome.fatal, []⟩
    | some r =>
      let resp : ResponseData := { r with Cached := true }
      match jsonMarshal resp with
      | none => ⟨⟨st.cache, resp⟩, Outcome.fatal, []⟩
      | some jsonResp => ⟨⟨st.cache, resp⟩, Outcome.ok jsonResp, []⟩
  | Except.ok none =>
    let resp : ResponseData := { resp with Answer := f resp.X resp.Y }
    match st.cache.Set tSet key resp cacheTTL with
    | Except.error _ => ⟨⟨st.cache, resp⟩, Outcome.fatal, [⟨action, x, y⟩]⟩
    | Except.ok cache =>
      match jsonMarshal resp with
      | none => ⟨⟨cache, resp⟩, Outcome.fatal, [⟨action, x, y⟩]⟩
      | some jsonResp => ⟨⟨cache, resp⟩, Outcome.ok jsonResp, [⟨action, x, y⟩]⟩

/-- Handler `addHandler`; `stringX` and `stringY` are the values of the query parameters, empty
when the parameter is missing. -/
def addHandler (st : State) (stringX stringY : String) (tGet tSet : Nat) : Result :=
  match ParseFloat stringX with
  | none => ⟨st, Outcome.badRequest "Missing/wrong format for key parameter X", []⟩
  | some x =>
    match ParseFloat stringY with
    | none => ⟨st, Outcome.badRequest "Missing/wrong format for key parameter Y", []⟩
    | some y => serve actionAdd Add st x y tGet tSet

/-- Handler `substractHandler`. -/
def substractHandler (st : State) (stringX stringY : String) (tGet tSet : Nat) : Result :=
  match ParseFloat stringX with
  | none => ⟨st, Outcome.badRequest "Missing/wrong format for key parameter X", []⟩
  | some x =>
    match ParseFloat stringY with
    | none => ⟨st, Outcome.badRequest "Missing/wrong format for key parameter Y", []⟩
    | some y => serve actionSubtract Subtract st x y tGet tSet

/-- Handler `multiplyHandler`. -/
def multiplyHandler (st : State) (stringX stringY : String) (tGet tSet : Nat) : Result :=
  match ParseFloat stringX with
  | none => ⟨st, Outcome.badRequest "Missing/wrong format for key parameter X", []⟩
  | some x =>
    match ParseFloat stringY with
    | none => ⟨st, Outcome.badRequest "Missing/wrong format for key parameter Y", []⟩
    | some y => serve actionMultiply Multiply st x y tGet tSet

/-- Handler `divideHandler`: a Y equal to zero is refused like a Y that does not parse. -/
def divideHandler (st : State) (stringX stringY : String) (tGet tSet : Nat) : Result :=
  match ParseFloat stringX with
  | none => ⟨st, Outcome.badRequest "Missing/wrong format for key parameter X", []⟩
  | some x =>
    match ParseFloat stringY with
    | none => ⟨st, Outcome.badRequest "Missing/wrong format for key parameter Y", []⟩
    | some y =>
      if F64.isZero y then
        ⟨st, Outcome.badRequest "Missing/wrong format for key parameter Y", []⟩
      else serve actionDivide Divide st x y tGet tSet

/-- The four routes registered in `main`. -/
inductive Route where
  | add : Route
  | subtract : Route
  | multiply : Route
  | divide : Route
deriving DecidableEq, Repr

/-- The handler of a route. -/
def Route.handler : Route → State → String → String → Nat → Nat → Result
  | Route.add => addHandler
  | Route.subtract => substractHandler
  | Route.multiply => multiplyHandler
  | Route.divide => divideHandler

/-- The action name of a route. -/
def Route.action : Route → String
  | Route.add => actionAdd
  | Route.subtract => actionSubtract
  | Route.multiply => actionMultiply
  | Route.divide => actionDivide

/-- The arithmetic function of a route. -/
def Route.op : Route → F64 → F64 → F64
  | Route.add => Add
  | Route.subtract => Subtract
  | Route.multiply => Multiply
  | Route.divide => Divide

/-- A request: the route, the two query values and the two clock readings. -/
structure Request where
  route : Route
  x : String
  y : String
  tGet : Nat
  tSet : Nat

/-- The handling of a request in a state. -/
def Request.run (rq : Request) (st : State) : Result :=
  rq.route.handler st rq.x rq.y rq.tGet rq.tSet

/-- The states the process can be in: the initial one, and the one left by a request
handled in such a state without ending the process. -/
inductive Reachable : State → Prop where
  | init : Reachable initState
  | step (st : State) (rq : Request) : Reachable st → (rq.run st).outcome ≠ Outcome.fatal →
      Reachable (rq.run st).state

/-- What holds of an item of the cache under the key `k`: its value is the marshalled
record that the handler of some route builds on a miss for operands with that key, and it
has an expiration. -/
def GoodItem (k : String) (item : Item) : Prop :=
  ∃ (rt : Route) (x y : F64) (b : JsonObject), x.Canon ∧ y.Canon ∧ k = keyOf rt.action x y ∧
    jsonMarshal (fresh rt.action rt.op x y) = some b ∧ item.Object = Object.bytes b ∧
    0 < item.Expiration

/-- The invariant of the cache: every item is a good one. -/
def Inv (st : State) : Prop :=
  ∀ k item, st.cache.client.items k = some item → GoodItem k item

end GoApp

/-! # Properties

## Rounding to float64 -/
namespace GoApp
namespace F64

theorem canon_fin (s : Bool) (m ex : Nat) :
    Canon (fin s m ex) ↔ m < 2 ^ 53 ∧ ex ≤ 2045 ∧ (m < 2 ^ 52 → ex = 0) := Iff.rfl

theorem canon_nan : Canon nan :=
  ⟨Nat.two_pow_pos 53, Nat.zero_le _, fun _ => rfl⟩

theorem canon_inf (s : Bool) : Canon (inf s) :=
  ⟨Nat.two_pow_pos 53, Nat.zero_le _, fun _ => rfl⟩

theorem canon_zero (s : Bool) : Canon (fin s 0 0) :=
  ⟨Nat.two_pow_pos 53, Nat.zero_le _, fun _ => rfl⟩

theorem log2F_spec : ∀ fuel n, n ≤ fuel → 0 < n →
    2 ^ log2F fuel n ≤ n ∧ n < 2 ^ (log2F fuel n + 1) := by
  intro fuel
  induction fuel with
  | zero => intro n h1 h2; omega
  | succ fuel ih =>
    intro n h1 h2
    unfold log2F
    split
    · constructor <;> simp <;> omega
    · split
      · have h := ih (n / 2) (by omega) (by omega)
        obtain ⟨ha, hb⟩ := h
        constructor
        · rw [pow_succ]; omega
        · rw [pow_succ]; omega
      · rename_i h3 h4
        have hpos : 0 < 2 ^ 64 := by positivity
        have hge : 2 ^ 64 ≤ n := by omega
        have hdpos : 0 < n / 2 ^ 64 := Nat.div_pos hge hpos
        have hdle : n / 2 ^ 64 ≤ fuel := by
          have : n / 2 ^ 64 < n := Nat.div_lt_self h2 (by norm_num)
          omega
        obtain ⟨ha, hb⟩ := ih (n / 2 ^ 64) hdle hdpos
        constructor
        · rw [pow_add]
          exact (Nat.le_div_iff_mul_le hpos).mp ha
        · have : log2F fuel (n / 2 ^ 64) + 64 + 1 = (log2F fuel (n / 2 ^ 64) + 1) + 64 := by omega
          rw [this, pow_add]
          exact (Nat.div_lt_iff_lt_mul hpos).mp hb

theorem ilog2_spec (n : Nat) (h : 0 < n) : 2 ^ ilog2 n ≤ n ∧ n < 2 ^ (ilog2 n + 1) :=
  log2F_spec n n (le_refl n) h

theorem ilog2_zero : ilog2 0 = 0 := rfl

theorem ilog2_unique (n k : Nat) (h1 : 2 ^ k ≤ n) (h2 : n < 2 ^ (k + 1)) : ilog2 n = k := by
  have hpos : 0 < n := lt_of_lt_of_le (by positivity) h1
  obtain ⟨ha, hb⟩ := ilog2_spec n hpos
  have h3 : ilog2 n < k + 1 := (Nat.pow_lt_pow_iff_right (by norm_num)).mp (lt_of_le_of_lt ha h2)
  have h4 : k < ilog2 n + 1 := (Nat.pow_lt_pow_iff_right (by norm_num)).mp (lt_of_le_of_lt h1 hb)
  omega

theorem ilog2_lt (n k : Nat) (h : n < 2 ^ k) : ilog2 n < k ∨ n = 0 := by
  rcases Nat.eq_zero_or_pos n with h0 | hpos
  · right; exact h0
  · left
    obtain ⟨ha, _⟩ := ilog2_spec n hpos
    exact (Nat.pow_lt_pow_iff_right (by norm_num)).mp (lt_of_le_of_lt ha h)

end F64
end GoApp
namespace GoApp
namespace F64

theorem div_congr (a b c d : Nat) (hb : 0 < b) (hd : 0 < d) (h : a * d = c * b) :
    a / b = c / d := by
  have h1 : a / b = (a * d) / (b * d) := (Nat.mul_div_mul_right a b hd).symm
  have h2 : c / d = (c * b) / (d * b) := (Nat.mul_div_mul_right c d hb).symm
  rw [h1, h2, h, Nat.mul_comm b d]

theorem lt_congr (a b c d k : Nat) (hb : 0 < b) (hd : 0 < d) (h : a * d = c * b) :
    (k * b < 2 * a ↔ k * d < 2 * c) := by
  constructor
  · intro hlt
    have h1 : k * b * d < 2 * a * d := Nat.mul_lt_mul_of_pos_right hlt hd
    have h2 : k * d * b < 2 * c * b := by
      calc k * d * b = k * b * d := by ring
        _ < 2 * a * d := h1
        _ = 2 * c * b := by rw [Nat.mul_assoc, h, Nat.mul_assoc]
    exact Nat.lt_of_mul_lt_mul_right h2
  · intro hlt
    have h1 : k * d * b < 2 * c * b := Nat.mul_lt_mul_of_pos_right hlt hb
    have h2 : k * b * d < 2 * a * d := by
      calc k * b * d = k * d * b := by ring
        _ < 2 * c * b := h1
        _ = 2 * a * d := by rw [Nat.mul_assoc, ← h, Nat.mul_assoc]
    exact Nat.lt_of_mul_lt_mul_right h2

theorem eq_congr (a b c d k : Nat) (hb : 0 < b) (hd : 0 < d) (h : a * d = c * b) :
    (k * b = 2 * a ↔ k * d = 2 * c) := by
  constructor
  · intro heq
    have h2 : k * d * b = 2 * c * b := by
      calc k * d * b = k * b * d := by ring
        _ = 2 * a * d := by rw [heq]
        _ = 2 * c * b := by rw [Nat.mul_assoc, h, Nat.mul_assoc]
    exact Nat.eq_of_mul_eq_mul_right hb h2
  · intro heq
    have h2 : k * b * d = 2 * a * d := by
      calc k * b * d = k * d * b := by ring
        _ = 2 * c * b := by rw [heq]
        _ = 2 * a * d := by rw [Nat.mul_assoc, ← h, Nat.mul_assoc]
    exact Nat.eq_of_mul_eq_mul_right hd h2

theorem nearestEven_congr (N1 D1 N2 D2 : Nat) (h1 : 0 < D1) (h2 : 0 < D2)
    (h : N1 * D2 = N2 * D1) : nearestEven N1 D1 = nearestEven N2 D2 := by
  unfold nearestEven
  have hq : N1 / D1 = N2 / D2 := div_congr N1 D1 N2 D2 h1 h2 h
  simp only [hq]
  have ha := lt_congr N1 D1 N2 D2 (2 * (N2 / D2) + 1) h1 h2 h
  have hb := eq_congr N1 D1 N2 D2 (2 * (N2 / D2) + 1) h1 h2 h
  simp only [ha, hb]

/-- The rounding depends on the value of the fraction only. -/
theorem roundQ_congr (s : Bool) (n1 d1 n2 d2 : Nat) (h1 : 0 < d1) (h2 : 0 < d2)
    (h : n1 * d2 = n2 * d1) : roundQ s n1 d1 = roundQ s n2 d2 := by
  unfold roundQ
  have hN : n1 * 2 ^ 1074 * d2 = n2 * 2 ^ 1074 * d1 := by
    calc n1 * 2 ^ 1074 * d2 = n1 * d2 * 2 ^ 1074 := by ring
      _ = n2 * d1 * 2 ^ 1074 := by rw [h]
      _ = n2 * 2 ^ 1074 * d1 := by ring
  have hq : n1 * 2 ^ 1074 / d1 = n2 * 2 ^ 1074 / d2 := div_congr _ _ _ _ h1 h2 hN
  simp only [hq]
  have hne : nearestEven (n1 * 2 ^ 1074) (d1 * 2 ^ (ilog2 (n2 * 2 ^ 1074 / d2) - 52)) =
      nearestEven (n2 * 2 ^ 1074) (d2 * 2 ^ (ilog2 (n2 * 2 ^ 1074 / d2) - 52)) := by
    apply nearestEven_congr
    · positivity
    · positivity
    · calc n1 * 2 ^ 1074 * (d2 * 2 ^ (ilog2 (n2 * 2 ^ 1074 / d2) - 52))
          = n1 * 2 ^ 1074 * d2 * 2 ^ (ilog2 (n2 * 2 ^ 1074 / d2) - 52) := by ring
        _ = n2 * 2 ^ 1074 * d1 * 2 ^ (ilog2 (n2 * 2 ^ 1074 / d2) - 52) := by rw [hN]
        _ = n2 * 2 ^ 1074 * (d1 * 2 ^ (ilog2 (n2 * 2 ^ 1074 / d2) - 52)) := by ring
  simp only [hne]

end F64
end GoApp

namespace GoApp
namespace F64

theorem nearestEven_cases (N D : Nat) :
    nearestEven N D = N / D ∨ nearestEven N D = N / D + 1 := by
  unfold nearestEven
  simp only []
  split
  · right; rfl
  · left; rfl

theorem nearestEven_exact (m D : Nat) (hD : 0 < D) : nearestEven (m * D) D = m := by
  unfold nearestEven
  have hq : m * D / D = m := Nat.mul_div_cancel m hD
  simp only [hq]
  have h1 : ¬ ((2 * m + 1) * D < 2 * (m * D)) := by
    have : 2 * (m * D) ≤ (2 * m + 1) * D := by
      calc 2 * (m * D) = (2 * m) * D := by ring
        _ ≤ (2 * m + 1) * D := Nat.mul_le_mul_right D (by omega)
    omega
  have h2 : ¬ ((2 * m + 1) * D = 2 * (m * D)) := by
    have : (2 * m + 1) * D = 2 * (m * D) + D := by ring
    omega
  simp [h1, h2]

/-- The quotient that `roundQ` rounds lies below `2^53`, and from `2^52` on when the
exponent is positive. -/
theorem quot_bounds (q0 : Nat) :
    q0 / 2 ^ (ilog2 q0 - 52) < 2 ^ 53 ∧
      (0 < ilog2 q0 - 52 → 2 ^ 52 ≤ q0 / 2 ^ (ilog2 q0 - 52)) := by
  rcases Nat.eq_zero_or_pos q0 with h0 | hpos
  · subst h0
    simp [ilog2_zero]
  · obtain ⟨ha, hb⟩ := ilog2_spec q0 hpos
    by_cases hl : ilog2 q0 ≤ 52
    · have he : ilog2 q0 - 52 = 0 := by omega
      rw [he]
      constructor
      · simp only [pow_zero, Nat.div_one]
        calc q0 < 2 ^ (ilog2 q0 + 1) := hb
          _ ≤ 2 ^ 53 := Nat.pow_le_pow_right (by norm_num) (by omega)
      · intro h; omega
    · have hpe : 0 < 2 ^ (ilog2 q0 - 52) := by positivity
      constructor
      · apply (Nat.div_lt_iff_lt_mul hpe).mpr
        rw [← pow_add]
        have : 53 + (ilog2 q0 - 52) = ilog2 q0 + 1 := by omega
        rw [this]; exact hb
      · intro _
        apply (Nat.le_div_iff_mul_le hpe).mpr
        rw [← pow_add]
        have : 52 + (ilog2 q0 - 52) = ilog2 q0 := by omega
        rw [this]; exact ha

/-- Every result of the rounding is in canonical form. -/
theorem roundQ_canon (s : Bool) (n d : Nat) : Canon (roundQ s n d) := by
  unfold roundQ
  simp only []
  generalize hN : n * 2 ^ 1074 = N
  generalize he : ilog2 (N / d) - 52 = e
  have hq : N / (d * 2 ^ e) = (N / d) / 2 ^ e := (Nat.div_div_eq_div_mul N d (2 ^ e)).symm
  obtain ⟨hb1, hb2⟩ := quot_bounds (N / d)
  rw [he] at hb1 hb2
  rw [← hq] at hb1 hb2
  have hc := nearestEven_cases N (d * 2 ^ e)
  generalize hm : nearestEven N (d * 2 ^ e) = m at hc
  generalize hqq : N / (d * 2 ^ e) = q at hc hb1 hb2
  by_cases h53 : m = 2 ^ 53
  · simp only [h53, if_true]
    split
    · exact canon_inf s
    · rename_i hlt
      rw [canon_fin]
      refine ⟨by norm_num, by omega, ?_⟩
      intro h; exact absurd h (by norm_num)
  · simp only [h53, if_false]
    split
    · exact canon_inf s
    · rename_i hlt
      rw [canon_fin]
      refine ⟨by omega, by omega, ?_⟩
      intro hlt52
      by_contra hne
      have : 2 ^ 52 ≤ q := hb2 (by omega)
      omega

/-- A value that is a float64 is rounded to itself. -/
theorem roundQ_exact (s : Bool) (m ex : Nat) (h : Canon (fin s m ex)) :
    roundQ s (m * 2 ^ ex) (2 ^ 1074) = fin s m ex := by
  obtain ⟨h1, h2, h3⟩ := (canon_fin s m ex).mp h
  unfold roundQ
  simp only []
  have hp : 0 < 2 ^ 1074 := by positivity
  have hq0 : m * 2 ^ ex * 2 ^ 1074 / 2 ^ 1074 = m * 2 ^ ex := Nat.mul_div_cancel _ hp
  rw [hq0]
  have he : ilog2 (m * 2 ^ ex) - 52 = ex := by
    by_cases hm : 2 ^ 52 ≤ m
    · have : ilog2 (m * 2 ^ ex) = 52 + ex := by
        apply ilog2_unique
        · rw [pow_add]; exact Nat.mul_le_mul_right _ hm
        · have : 52 + ex + 1 = 53 + ex := by omega
          rw [this, pow_add]
          exact Nat.mul_lt_mul_of_pos_right h1 (by positivity)
      omega
    · have hex : ex = 0 := h3 (by omega)
      subst hex
      simp only [pow_zero, Nat.mul_one]
      rcases ilog2_lt m 52 (by omega) with hl | hl
      · omega
      · subst hl; simp [ilog2_zero]
  rw [he]
  have hne : nearestEven (m * 2 ^ ex * 2 ^ 1074) (2 ^ 1074 * 2 ^ ex) = m := by
    have : m * 2 ^ ex * 2 ^ 1074 = m * (2 ^ 1074 * 2 ^ ex) := by ring
    rw [this]
    exact nearestEven_exact m _ (by positivity)
  rw [hne]
  have h53 : m ≠ 2 ^ 53 := by omega
  simp only [h53, if_false]
  have : ¬ (2045 < ex) := by omega
  simp only [this, if_false]

/-- A fraction whose value is a float64 is rounded to that float64. -/
theorem roundQ_of_value (s : Bool) (n d m ex : Nat) (hd : 0 < d) (h : Canon (fin s m ex))
    (hv : n * 2 ^ 1074 = m * 2 ^ ex * d) : roundQ s n d = fin s m ex := by
  rw [roundQ_congr s n d (m * 2 ^ ex) (2 ^ 1074) hd (by positivity) hv]
  exact roundQ_exact s m ex h

end F64
end GoApp

/-! ## Digits -/

namespace GoApp

theorem digitChar_isDigit (d : Nat) (h : d < 10) : (digitChar d).isDigit = true := by
  interval_cases d <;> rfl

theorem digitVal_digitChar (d : Nat) (h : d < 10) : digitVal (digitChar d) = d := by
  interval_cases d <;> rfl

theorem isDigit_toNat (c : Char) (h : c.isDigit = true) : 48 ≤ c.toNat ∧ c.toNat ≤ 57 := by
  unfold Char.isDigit at h
  simp only [Bool.and_eq_true, decide_eq_true_eq] at h
  obtain ⟨h1, h2⟩ := h
  constructor
  · exact h1
  · exact h2

theorem isDigit_ne (c x : Char) (h : c.isDigit = true) (hx : x.isDigit = false) : c ≠ x := by
  intro heq
  rw [heq, hx] at h
  exact Bool.noConfusion h

theorem digitVal_lt (c : Char) (h : c.isDigit = true) : digitVal c < 10 := by
  have := isDigit_toNat c h
  unfold digitVal
  omega

theorem digitsF_fuel : ∀ (f1 f2 n : Nat), n ≤ f1 → n ≤ f2 → digitsF f1 n = digitsF f2 n := by
  intro f1
  induction f1 with
  | zero =>
    intro f2 n h1 h2
    have hn : n = 0 := by omega
    subst hn
    cases f2 <;> simp [digitsF]
  | succ f1 ih =>
    intro f2 n h1 h2
    cases f2 with
    | zero =>
      have hn : n = 0 := by omega
      subst hn
      simp [digitsF]
    | succ f2 =>
      unfold digitsF
      by_cases hn : n = 0
      · simp [hn]
      · simp only [hn, if_false]
        rw [ih f2 (n / 10) (by omega) (by omega)]

theorem natDigits_zero : natDigits 0 = [] := rfl

theorem digitsF_succ (f n : Nat) :
    digitsF (f + 1) n = if n = 0 then [] else digitsF f (n / 10) ++ [digitChar (n % 10)] := rfl

theorem natDigits_pos (n : Nat) (h : 0 < n) :
    natDigits n = natDigits (n / 10) ++ [digitChar (n % 10)] := by
  unfold natDigits
  cases n with
  | zero => omega
  | succ k =>
    show digitsF (k + 1) (k + 1) = digitsF ((k + 1) / 10) ((k + 1) / 10) ++ _
    rw [digitsF_succ]
    have hne : k + 1 ≠ 0 := by omega
    simp only [hne, if_false]
    rw [digitsF_fuel k ((k + 1) / 10) ((k + 1) / 10) (by omega) (le_refl _)]

theorem natDigits_isDigit (n : Nat) : ∀ c ∈ natDigits n, c.isDigit = true := by
  induction n using Nat.strong_induction_on with
  | _ n ih =>
    rcases Nat.eq_zero_or_pos n with h0 | hpos
    · subst h0; intro c hc; simp [natDigits_zero] at hc
    · rw [natDigits_pos n hpos]
      intro c hc
      rw [List.mem_append] at hc
      rcases hc with hc | hc
      · exact ih (n / 10) (by omega) c hc
      · simp only [List.mem_singleton] at hc
        rw [hc]
        exact digitChar_isDigit _ (Nat.mod_lt _ (by norm_num))

theorem natDigits_ne_nil (n : Nat) (h : 0 < n) : natDigits n ≠ [] := by
  rw [natDigits_pos n h]
  simp

theorem ofDigits_append (acc : Nat) (xs ys : List Char) :
    ofDigits acc (xs ++ ys) = ofDigits (ofDigits acc xs) ys := by
  unfold ofDigits
  rw [List.foldl_append]

theorem ofDigits_acc (acc : Nat) (cs : List Char) :
    ofDigits acc cs = acc * 10 ^ cs.length + ofDigits 0 cs := by
  induction cs generalizing acc with
  | nil => simp [ofDigits]
  | cons c cs ih =>
    have h1 : ofDigits acc (c :: cs) = ofDigits (acc * 10 + digitVal c) cs := rfl
    have h2 : ofDigits 0 (c :: cs) = ofDigits (0 * 10 + digitVal c) cs := rfl
    rw [h1, h2, ih (acc * 10 + digitVal c), ih (0 * 10 + digitVal c)]
    simp only [List.length_cons, pow_succ]
    ring

theorem ofDigits_natDigits (n : Nat) : ofDigits 0 (natDigits n) = n := by
  induction n using Nat.strong_induction_on with
  | _ n ih =>
    rcases Nat.eq_zero_or_pos n with h0 | hpos
    · subst h0; rfl
    · rw [natDigits_pos n hpos, ofDigits_append, ih (n / 10) (by omega)]
      show (n / 10) * 10 + digitVal (digitChar (n % 10)) = n
      rw [digitVal_digitChar _ (Nat.mod_lt _ (by norm_num))]
      omega

theorem ofDigits_zeros (acc k : Nat) : ofDigits acc (List.replicate k '0') = acc * 10 ^ k := by
  induction k generalizing acc with
  | zero => simp [ofDigits]
  | succ k ih =>
    have h1 : ofDigits acc (List.replicate (k + 1) '0') =
        ofDigits (acc * 10 + digitVal '0') (List.replicate k '0') := rfl
    rw [h1, ih]
    have : digitVal '0' = 0 := rfl
    rw [this, pow_succ]
    ring

theorem natDigits_length_le (n k : Nat) (h : n < 10 ^ k) : (natDigits n).length ≤ k := by
  induction n using Nat.strong_induction_on generalizing k with
  | _ n ih =>
    rcases Nat.eq_zero_or_pos n with h0 | hpos
    · subst h0; simp [natDigits_zero]
    · rw [natDigits_pos n hpos]
      simp only [List.length_append, List.length_singleton]
      cases k with
      | zero => simp at h; omega
      | succ k =>
        have : n / 10 < 10 ^ k := by
          apply (Nat.div_lt_iff_lt_mul (by norm_num)).mpr
          rw [pow_succ] at h
          exact h
        have := ih (n / 10) (by omega) k this
        omega

theorem natDigits_lt_pow (n : Nat) : n < 10 ^ (natDigits n).length := by
  induction n using Nat.strong_induction_on with
  | _ n ih =>
    rcases Nat.eq_zero_or_pos n with h0 | hpos
    · subst h0; simp [natDigits_zero]
    · rw [natDigits_pos n hpos]
      simp only [List.length_append, List.length_singleton, pow_succ]
      have := ih (n / 10) (by omega)
      omega

theorem natDigits_pow_le (n : Nat) (h : 0 < n) : 10 ^ ((natDigits n).length - 1) ≤ n := by
  induction n using Nat.strong_induction_on with
  | _ n ih =>
    rw [natDigits_pos n h]
    simp only [List.length_append, List.length_singleton, Nat.add_sub_cancel]
    rcases Nat.eq_zero_or_pos (n / 10) with h0 | hpos
    · rw [h0, natDigits_zero]; simp; omega
    · have h1 := ih (n / 10) (by omega) hpos
      have h2 : (natDigits (n / 10)).length = ((natDigits (n / 10)).length - 1) + 1 := by
        have := natDigits_ne_nil (n / 10) hpos
        have : 0 < (natDigits (n / 10)).length := List.length_pos.mpr this
        omega
      rw [h2, pow_succ]
      omega

end GoApp

/-! ## Reading back what was written -/

namespace GoApp

theorem scanMant_nil (hex : Bool) (st : Scan) : scanMant hex [] st = (st, []) := rfl

theorem scanMant_digit (c : Char) (cs : List Char) (st : Scan) (h : c.isDigit = true) :
    scanMant false (c :: cs) st = scanMant false cs
      ⟨st.mant * 10 + digitVal c, if st.sawdot then st.frac + 1 else st.frac, st.sawdot, true,
        st.underscores⟩ := by
  have h1 : c ≠ '_' := isDigit_ne c '_' h rfl
  have h2 : c ≠ '.' := isDigit_ne c '.' h rfl
  rw [scanMant]
  simp [h1, h2, h]

theorem scanMant_dot (cs : List Char) (st : Scan) (h : st.sawdot = false) :
    scanMant false ('.' :: cs) st = scanMant false cs
      ⟨st.mant, st.frac, true, st.sawdigits, st.underscores⟩ := by
  rw [scanMant]
  simp [h]

theorem scanMant_e (cs : List Char) (st : Scan) :
    scanMant false ('e' :: cs) st = (st, 'e' :: cs) := by
  rw [scanMant]
  simp

theorem scanMant_digits (ds rest : List Char) (h : ∀ c ∈ ds, c.isDigit = true) :
    ∀ st : Scan, scanMant false (ds ++ rest) st = scanMant false rest
      ⟨ofDigits st.mant ds, if st.sawdot then st.frac + ds.length else st.frac, st.sawdot,
        st.sawdigits || !ds.isEmpty, st.underscores⟩ := by
  induction ds with
  | nil =>
    intro st
    cases st
    simp [ofDigits]
  | cons c cs ih =>
    intro st
    have hc : c.isDigit = true := h c (List.mem_cons_self c cs)
    have hcs : ∀ x ∈ cs, x.isDigit = true := fun x hx => h x (List.mem_cons_of_mem c hx)
    rw [List.cons_append, scanMant_digit c (cs ++ rest) st hc, ih hcs]
    congr 1
    cases hs : st.sawdot <;> simp [ofDigits, List.foldl]
    omega

end GoApp

namespace GoApp

theorem scanExp_digit (c : Char) (cs : List Char) (e : Nat) (u : Bool) (h : c.isDigit = true) :
    scanExp (c :: cs) e u = scanExp cs (if e < 10000 then e * 10 + digitVal c else e) u := by
  have h1 : c ≠ '_' := isDigit_ne c '_' h rfl
  rw [scanExp]
  simp [h1, h]

theorem scanExp_nil (e : Nat) (u : Bool) : scanExp [] e u = (e, u, []) := rfl

theorem scanExp_expDigits (pad : Bool) (e : Nat) (h : e < 1000) :
    scanExp (expDigits pad e) 0 false = (e, false, []) := by
  unfold expDigits
  split
  · rename_i h1
    cases pad
    · simp only [Bool.false_eq_true, if_false]
      rw [scanExp_digit _ _ _ _ (digitChar_isDigit e h1), scanExp_nil,
        digitVal_digitChar e h1]
      simp
    · simp only [if_true]
      rw [scanExp_digit _ _ _ _ (by rfl), scanExp_digit _ _ _ _ (digitChar_isDigit e h1),
        scanExp_nil, digitVal_digitChar e h1]
      have : digitVal '0' = 0 := rfl
      simp [this]
  · split
    · rename_i h1 h2
      have ha : e / 10 < 10 := by omega
      have hb : e % 10 < 10 := by omega
      rw [scanExp_digit _ _ _ _ (digitChar_isDigit _ ha),
        scanExp_digit _ _ _ _ (digitChar_isDigit _ hb), scanExp_nil,
        digitVal_digitChar _ ha, digitVal_digitChar _ hb]
      simp only [Nat.zero_mul, Nat.zero_add, Nat.lt_irrefl, Prod.mk.injEq, and_true]
      split_ifs <;> omega
    · rename_i h1 h2
      have ha : e / 100 < 10 := by omega
      have hb : e / 10 % 10 < 10 := by omega
      have hc : e % 10 < 10 := by omega
      rw [scanExp_digit _ _ _ _ (digitChar_isDigit _ ha),
        scanExp_digit _ _ _ _ (digitChar_isDigit _ hb),
        scanExp_digit _ _ _ _ (digitChar_isDigit _ hc), scanExp_nil,
        digitVal_digitChar _ ha, digitVal_digitChar _ hb, digitVal_digitChar _ hc]
      simp only [Nat.zero_mul, Nat.zero_add, Nat.lt_irrefl, Prod.mk.injEq, and_true]
      split_ifs <;> omega

theorem expDigits_head (pad : Bool) (e : Nat) (h : e < 1000) :
    ∃ c cs, expDigits pad e = c :: cs ∧ c.isDigit = true := by
  unfold expDigits
  split
  · rename_i h1
    cases pad
    · exact ⟨_, _, rfl, digitChar_isDigit e h1⟩
    · exact ⟨_, _, rfl, rfl⟩
  · split
    · exact ⟨_, _, rfl, digitChar_isDigit _ (by omega)⟩
    · exact ⟨_, _, rfl, digitChar_isDigit _ (by omega)⟩

/-- Reading the exponent written by `fmtE`. -/
theorem readExp_written (pad : Bool) (e : Int) (h : e.natAbs < 1000) :
    readExp ((if e < 0 then '-' else '+') :: expDigits pad e.natAbs) = some (e, false, []) := by
  obtain ⟨c, cs, hcs, hc⟩ := expDigits_head pad e.natAbs h
  have hscan := scanExp_expDigits pad e.natAbs h
  rw [hcs] at hscan
  by_cases hneg : e < 0
  · simp only [hneg, if_true]
    rw [hcs]
    simp [readExp, hc, hscan]
    rw [abs_of_neg hneg]
    omega
  · simp only [hneg, if_false]
    rw [hcs]
    simp [readExp, hc, hscan]
    exact not_lt.mp hneg

end GoApp

namespace GoApp

theorem hexStart_false (s : List Char) (h : ∀ c ∈ s, c ≠ 'x' ∧ c ≠ 'X') :
    hexStart s = false := by
  match s with
  | [] => rfl
  | [_] => rfl
  | [_, _] => rfl
  | c0 :: c1 :: c2 :: cs =>
    have := h c1 (by simp)
    simp [hexStart, this.1, this.2]

theorem digit_not_x (c : Char) (h : c.isDigit = true) : c ≠ 'x' ∧ c ≠ 'X' :=
  ⟨isDigit_ne c 'x' h rfl, isDigit_ne c 'X' h rfl⟩

theorem Plain.hexStart (s : List Char) (h : Plain s) : hexStart s = false := by
  apply hexStart_false
  intro c hc
  rcases h c hc with h1 | h1 | h1 | h1 | h1
  · exact digit_not_x c h1
  · subst h1; decide
  · subst h1; decide
  · subst h1; decide
  · subst h1; decide

theorem Plain.digits (s : List Char) (h : ∀ c ∈ s, c.isDigit = true) : Plain s :=
  fun c hc => Or.inl (h c hc)

theorem Plain.append (s t : List Char) (hs : Plain s) (ht : Plain t) : Plain (s ++ t) := by
  intro c hc
  rcases List.mem_append.mp hc with h | h
  · exact hs c h
  · exact ht c h

theorem Plain.cons (c : Char) (t : List Char)
    (hc : c.isDigit = true ∨ c = '.' ∨ c = 'e' ∨ c = '+' ∨ c = '-') (ht : Plain t) :
    Plain (c :: t) := by
  intro x hx
  rcases List.mem_cons.mp hx with h | h
  · rw [h]; exact hc
  · exact ht x h

theorem Plain.nil : Plain [] := fun c hc => absurd hc (List.not_mem_nil c)

theorem readUnsigned_int (neg : Bool) (I whole : List Char) (hI : ∀ c ∈ I, c.isDigit = true)
    (hne : I ≠ []) : readUnsigned neg I whole = some ⟨neg, false, ofDigits 0 I, 0⟩ := by
  have hhex := Plain.hexStart I (Plain.digits I hI)
  have hscan := scanMant_digits I [] hI ⟨0, 0, false, false, false⟩
  rw [List.append_nil, scanMant_nil] at hscan
  have hemp : I.isEmpty = false := by
    cases I with
    | nil => exact absurd rfl hne
    | cons _ _ => rfl
  unfold readUnsigned
  simp [hhex, hscan, hemp]

theorem readUnsigned_frac (neg : Bool) (I f whole : List Char)
    (hI : ∀ c ∈ I, c.isDigit = true) (hf : ∀ c ∈ f, c.isDigit = true) (hne : I ≠ []) :
    readUnsigned neg (I ++ '.' :: f) whole =
      some ⟨neg, false, ofDigits 0 (I ++ f), - (f.length : Int)⟩ := by
  have hhex := Plain.hexStart (I ++ '.' :: f)
    (Plain.append _ _ (Plain.digits I hI) (Plain.cons _ _ (Or.inr (Or.inl rfl)) (Plain.digits f hf)))
  have hscan := scanMant_digits I ('.' :: f) hI ⟨0, 0, false, false, false⟩
  rw [scanMant_dot _ _ rfl] at hscan
  have hscan2 := scanMant_digits f [] hf ⟨ofDigits 0 I, 0, true, false || !I.isEmpty, false⟩
  rw [List.append_nil, scanMant_nil] at hscan2
  simp only [Bool.false_eq_true, if_false] at hscan
  rw [hscan2] at hscan
  have hemp : I.isEmpty = false := by
    cases I with
    | nil => exact absurd rfl hne
    | cons _ _ => rfl
  unfold readUnsigned
  simp [hhex, hscan, hemp, ofDigits_append]

end GoApp

namespace GoApp

theorem readUnsigned_exp_int (neg : Bool) (I X whole : List Char) (e : Int)
    (hI : ∀ c ∈ I, c.isDigit = true) (hne : I ≠ []) (hX : Plain X)
    (hexp : readExp X = some (e, false, [])) :
    readUnsigned neg (I ++ 'e' :: X) whole = some ⟨neg, false, ofDigits 0 I, e⟩ := by
  have hhex := Plain.hexStart (I ++ 'e' :: X)
    (Plain.append _ _ (Plain.digits I hI) (Plain.cons _ _ (Or.inr (Or.inr (Or.inl rfl))) hX))
  have hscan := scanMant_digits I ('e' :: X) hI ⟨0, 0, false, false, false⟩
  rw [scanMant_e] at hscan
  have hemp : I.isEmpty = false := by
    cases I with
    | nil => exact absurd rfl hne
    | cons _ _ => rfl
  unfold readUnsigned
  simp [hhex, hscan, hemp, hexp]

theorem readUnsigned_exp_frac (neg : Bool) (I f X whole : List Char) (e : Int)
    (hI : ∀ c ∈ I, c.isDigit = true) (hf : ∀ c ∈ f, c.isDigit = true) (hne : I ≠ [])
    (hX : Plain X) (hexp : readExp X = some (e, false, [])) :
    readUnsigned neg (I ++ '.' :: (f ++ 'e' :: X)) whole =
      some ⟨neg, false, ofDigits 0 (I ++ f), e - (f.length : Int)⟩ := by
  have hhex := Plain.hexStart (I ++ '.' :: (f ++ 'e' :: X))
    (Plain.append _ _ (Plain.digits I hI) (Plain.cons _ _ (Or.inr (Or.inl rfl))
      (Plain.append _ _ (Plain.digits f hf) (Plain.cons _ _ (Or.inr (Or.inr (Or.inl rfl))) hX))))
  have hscan := scanMant_digits I ('.' :: (f ++ 'e' :: X)) hI ⟨0, 0, false, false, false⟩
  rw [scanMant_dot _ _ rfl] at hscan
  have hscan2 := scanMant_digits f ('e' :: X) hf ⟨ofDigits 0 I, 0, true, false || !I.isEmpty, false⟩
  rw [scanMant_e] at hscan2
  simp only [Bool.false_eq_true, if_false] at hscan
  rw [hscan2] at hscan
  have hemp : I.isEmpty = false := by
    cases I with
    | nil => exact absurd rfl hne
    | cons _ _ => rfl
  unfold readUnsigned
  simp [hhex, hscan, hemp, hexp, ofDigits_append]

/-- A text that starts with a digit or a minus sign spells no infinity and no NaN. -/
theorem special_digit (c : Char) (cs : List Char) (h : c.isDigit = true) :
    special (c :: cs) = none := by
  have h1 : c ≠ '+' := isDigit_ne c '+' h rfl
  have h2 : c ≠ '-' := isDigit_ne c '-' h rfl
  have h3 : c ≠ 'i' := isDigit_ne c 'i' h rfl
  have h4 : c ≠ 'I' := isDigit_ne c 'I' h rfl
  have h5 : c ≠ 'n' := isDigit_ne c 'n' h rfl
  have h6 : c ≠ 'N' := isDigit_ne c 'N' h rfl
  simp [special, h1, h2, h3, h4, h5, h6]

theorem lowerASCII_digit (c : Char) (h : c.isDigit = true) : lowerASCII c = c := by
  have := isDigit_toNat c h
  unfold lowerASCII
  have : ¬ (65 ≤ c.toNat ∧ c.toNat ≤ 90) := by omega
  simp only [this, if_false]

theorem specialInf_digit (c : Char) (cs : List Char) (h : c.isDigit = true) :
    specialInf (c :: cs) = none := by
  have h1 : c ≠ 'i' := isDigit_ne c 'i' h rfl
  unfold specialInf
  have : commonLenIgnoreCase (c :: cs) ['i', 'n', 'f', 'i', 'n', 'i', 't', 'y'] = 0 := by
    rw [commonLenIgnoreCase, lowerASCII_digit c h]
    simp [h1]
  simp [this]

theorem special_minus_digit (c : Char) (cs : List Char) (h : c.isDigit = true) :
    special ('-' :: c :: cs) = none := by
  rw [special]
  simp [specialInf_digit c cs h]

end GoApp

namespace GoApp

theorem readFloat_signed (neg : Bool) (c : Char) (cs : List Char) (h : c.isDigit = true) :
    readFloat (signChars neg ++ c :: cs) =
      readUnsigned neg (c :: cs) (signChars neg ++ c :: cs) := by
  have h1 : c ≠ '+' := isDigit_ne c '+' h rfl
  have h2 : c ≠ '-' := isDigit_ne c '-' h rfl
  cases neg
  · simp [signChars, readFloat, h1, h2]
  · simp [signChars, readFloat]

theorem special_signed (neg : Bool) (c : Char) (cs : List Char) (h : c.isDigit = true) :
    special (signChars neg ++ c :: cs) = none := by
  cases neg
  · exact special_digit c cs h
  · exact special_minus_digit c cs h

theorem parse_of_read (t : List Char) (l : Lit) (s : Bool) (m ex : Nat)
    (h1 : special t = none) (h2 : readFloat t = some l) (h3 : l.toF64 = F64.fin s m ex) :
    ParseFloat (String.mk t) = some (F64.fin s m ex) := by
  unfold ParseFloat
  simp [h1, h2, h3]

theorem plain_expText (pad : Bool) (e : Int) (h : e.natAbs < 1000) :
    Plain ((if e < 0 then '-' else '+') :: expDigits pad e.natAbs) := by
  apply Plain.cons
  · split
    · right; right; right; right; rfl
    · right; right; right; left; rfl
  · unfold expDigits
    split
    · rename_i h1
      cases pad
      · exact Plain.cons _ _ (Or.inl (digitChar_isDigit _ h1)) Plain.nil
      · exact Plain.cons _ _ (Or.inl rfl) (Plain.cons _ _ (Or.inl (digitChar_isDigit _ h1)) Plain.nil)
    · split
      · exact Plain.cons _ _ (Or.inl (digitChar_isDigit _ (by omega)))
          (Plain.cons _ _ (Or.inl (digitChar_isDigit _ (by omega))) Plain.nil)
      · exact Plain.cons _ _ (Or.inl (digitChar_isDigit _ (by omega)))
          (Plain.cons _ _ (Or.inl (digitChar_isDigit _ (by omega)))
            (Plain.cons _ _ (Or.inl (digitChar_isDigit _ (by omega))) Plain.nil))

/-- Reading what `fmtE` writes for the digits of `c` gives back `c` and the exponent. -/
theorem read_fmtE (pad neg : Bool) (c : Nat) (dp : Int) (hc : 0 < c)
    (hdp : (dp - 1).natAbs < 1000) :
    special (fmtE pad neg ⟨natDigits c, dp⟩) = none ∧
    readFloat (fmtE pad neg ⟨natDigits c, dp⟩) =
      some ⟨neg, false, c, dp - ((natDigits c).length : Int)⟩ := by
  have hdig := natDigits_isDigit c
  have hval := ofDigits_natDigits c
  have hne := natDigits_ne_nil c hc
  generalize natDigits c = ds at hdig hval hne
  match ds, hne with
  | d0 :: tl, _ =>
    have hd0 : d0.isDigit = true := hdig d0 (List.mem_cons_self d0 tl)
    have htl : ∀ x ∈ tl, x.isDigit = true := fun x hx => hdig x (List.mem_cons_of_mem d0 hx)
    have hI : ∀ x ∈ [d0], x.isDigit = true := by
      intro x hx
      simp only [List.mem_singleton] at hx
      rw [hx]; exact hd0
    have hX := plain_expText pad (dp - 1) hdp
    have hexp := readExp_written pad (dp - 1) hdp
    by_cases htn : tl = []
    · subst htn
      have htext : fmtE pad neg ⟨[d0], dp⟩ = signChars neg ++ d0 ::
          ('e' :: (if dp - 1 < 0 then '-' else '+') :: expDigits pad (dp - 1).natAbs) := by
        simp [fmtE]
      rw [htext]
      refine ⟨special_signed neg d0 _ hd0, ?_⟩
      rw [readFloat_signed neg d0 _ hd0]
      have := readUnsigned_exp_int neg [d0] _ (signChars neg ++ d0 ::
          ('e' :: (if dp - 1 < 0 then '-' else '+') :: expDigits pad (dp - 1).natAbs))
          (dp - 1) hI (by simp) hX hexp
      rw [List.singleton_append] at this
      rw [this, hval]
      simp
    · have htext : fmtE pad neg ⟨d0 :: tl, dp⟩ = signChars neg ++ d0 :: ('.' :: (tl ++
          'e' :: (if dp - 1 < 0 then '-' else '+') :: expDigits pad (dp - 1).natAbs)) := by
        simp [fmtE, htn]
      rw [htext]
      refine ⟨special_signed neg d0 _ hd0, ?_⟩
      rw [readFloat_signed neg d0 _ hd0]
      have := readUnsigned_exp_frac neg [d0] tl _ (signChars neg ++ d0 :: ('.' :: (tl ++
          'e' :: (if dp - 1 < 0 then '-' else '+') :: expDigits pad (dp - 1).natAbs)))
          (dp - 1) hI htl (by simp) hX hexp
      rw [List.singleton_append] at this
      rw [this]
      rw [List.singleton_append, hval]
      simp
      omega

end GoApp

namespace GoApp

theorem zeros_isDigit (k : Nat) : ∀ c ∈ List.replicate k '0', c.isDigit = true := by
  intro c hc
  rw [List.eq_of_mem_replicate hc]
  rfl

/-- Reading what `fmtF` writes for the digits of `c` gives back the value of the decimal. -/
theorem read_fmtF (neg : Bool) (c : Nat) (dp : Int) (hc : 0 < c) :
    special (fmtF neg ⟨natDigits c, dp⟩) = none ∧
    ∃ l, readFloat (fmtF neg ⟨natDigits c, dp⟩) = some l ∧
      l.toF64 = Lit.toF64 ⟨neg, false, c, dp - ((natDigits c).length : Int)⟩ := by
  have hdig := natDigits_isDigit c
  have hval := ofDigits_natDigits c
  have hne := natDigits_ne_nil c hc
  generalize natDigits c = ds at hdig hval hne
  match ds, hne with
  | d0 :: tl, _ =>
    have hd0 : d0.isDigit = true := hdig d0 (List.mem_cons_self d0 tl)
    have hlen : (((d0 :: tl).length : Nat) : Int) = (tl.length : Int) + 1 := by
      simp only [List.length_cons, Nat.cast_add, Nat.cast_one]
    by_cases h0 : 0 < dp
    · by_cases hL : dp < (tl.length : Int) + 1
      · -- digits on both sides of the point
        obtain ⟨n, hn⟩ : ∃ n : Nat, dp.toNat = n + 1 := ⟨dp.toNat - 1, by omega⟩
        have htext : fmtF neg ⟨d0 :: tl, dp⟩ = signChars neg ++ d0 ::
            (tl.take n ++ '.' :: tl.drop n) := by
          have hz : n - tl.length = 0 := by omega
          have hz2 : (- dp).toNat = 0 := by omega
          simp [fmtF, h0, hL, hn, hz, hz2]
        rw [htext]
        refine ⟨special_signed neg d0 _ hd0, ?_⟩
        rw [readFloat_signed neg d0 _ hd0]
        have hI : ∀ x ∈ d0 :: tl.take n, x.isDigit = true := by
          intro x hx
          rcases List.mem_cons.mp hx with h | h
          · rw [h]; exact hd0
          · exact hdig x (List.mem_cons_of_mem d0 (List.mem_of_mem_take h))
        have hf : ∀ x ∈ tl.drop n, x.isDigit = true := fun x hx =>
          hdig x (List.mem_cons_of_mem d0 (List.mem_of_mem_drop hx))
        have := readUnsigned_frac neg (d0 :: tl.take n) (tl.drop n)
          (signChars neg ++ d0 :: (tl.take n ++ '.' :: tl.drop n)) hI hf (by simp)
        rw [List.cons_append] at this
        rw [this]
        refine ⟨_, rfl, ?_⟩
        rw [List.cons_append, List.take_append_drop, hval, hlen]
        congr 2
        simp only [List.length_drop]
        omega
      · -- an integer, padded with zeros
        have htext : fmtF neg ⟨d0 :: tl, dp⟩ = signChars neg ++ d0 ::
            (tl ++ List.replicate (dp.toNat - (tl.length + 1)) '0') := by
          have ht : List.take dp.toNat (d0 :: tl) = d0 :: tl := by
            apply List.take_of_length_le
            simp only [List.length_cons]
            omega
          have hL2 : (tl.length : Int) + 1 ≤ dp := by omega
          simp [fmtF, h0, hL2, ht]
        rw [htext]
        refine ⟨special_signed neg d0 _ hd0, ?_⟩
        rw [readFloat_signed neg d0 _ hd0]
        have hI : ∀ x ∈ (d0 :: tl) ++ List.replicate (dp.toNat - (tl.length + 1)) '0',
            x.isDigit = true := by
          intro x hx
          rcases List.mem_append.mp hx with h | h
          · exact hdig x h
          · exact zeros_isDigit _ x h
        have := readUnsigned_int neg ((d0 :: tl) ++ List.replicate (dp.toNat - (tl.length + 1)) '0')
          (signChars neg ++ d0 :: (tl ++ List.replicate (dp.toNat - (tl.length + 1)) '0'))
          hI (by simp)
        rw [List.cons_append] at this
        rw [this]
        refine ⟨_, rfl, ?_⟩
        rw [← List.cons_append, ofDigits_append, hval, ofDigits_zeros]
        rw [hlen]
        have hge : 0 ≤ dp - ((tl.length : Int) + 1) := by omega
        have hk : (dp - ((tl.length : Int) + 1)).toNat = dp.toNat - (tl.length + 1) := by
          omega
        simp [Lit.toF64, hge, hk]
    · -- zeros after the point
      have hL : dp < (tl.length : Int) + 1 := by omega
      have htext : fmtF neg ⟨d0 :: tl, dp⟩ = signChars neg ++ '0' ::
          ('.' :: (List.replicate (- dp).toNat '0' ++ d0 :: tl)) := by
        have hz : dp.toNat = 0 := by omega
        simp [fmtF, h0, hL, hz]
      rw [htext]
      refine ⟨special_signed neg '0' _ rfl, ?_⟩
      rw [readFloat_signed neg '0' _ rfl]
      have hI : ∀ x ∈ ['0'], x.isDigit = true := by
        intro x hx
        simp only [List.mem_singleton] at hx
        rw [hx]; rfl
      have hf : ∀ x ∈ List.replicate (- dp).toNat '0' ++ d0 :: tl, x.isDigit = true := by
        intro x hx
        rcases List.mem_append.mp hx with h | h
        · exact zeros_isDigit _ x h
        · exact hdig x h
      have := readUnsigned_frac neg ['0'] (List.replicate (- dp).toNat '0' ++ d0 :: tl)
        (signChars neg ++ '0' :: ('.' :: (List.replicate (- dp).toNat '0' ++ d0 :: tl)))
        hI hf (by simp)
      rw [List.singleton_append] at this
      rw [this]
      refine ⟨_, rfl, ?_⟩
      have hm : ofDigits 0 (['0'] ++ (List.replicate (- dp).toNat '0' ++ d0 :: tl)) = c := by
        rw [ofDigits_append, ofDigits_append, ofDigits_zeros]
        have : ofDigits 0 ['0'] = 0 := rfl
        rw [this, Nat.zero_mul, hval]
      rw [hm, hlen]
      congr 2
      simp only [List.length_append, List.length_replicate, List.length_cons, Nat.cast_add,
        Nat.cast_one]
      omega

end GoApp

/-! ## The shortest decimal -/

namespace GoApp

theorem tryDigits_spec (neg : Bool) (m ex A : Nat) (dp : Int) (nd : Nat) (l : Lit)
    (h : tryDigits neg m ex A dp nd = some l) : ReadsBack neg m ex l := by
  unfold tryDigits at h
  simp only [] at h
  split_ifs at h with h1 h2 h3 h4 h5 h6 <;> cases h <;> refine ⟨?_, rfl, rfl⟩ <;>
    simp only [decide_eq_true_eq] at * <;>
    first
      | exact (‹_ ∧ _›).1
      | exact (‹_ ∧ _›).2
      | assumption

theorem searchDigits_spec (neg : Bool) (m ex A : Nat) (dp : Int) :
    ∀ (fuel nd : Nat) (l : Lit), searchDigits neg m ex A dp fuel nd = some l →
      ReadsBack neg m ex l := by
  intro fuel
  induction fuel with
  | zero => intro nd l h; simp [searchDigits] at h
  | succ fuel ih =>
    intro nd l h
    rw [searchDigits] at h
    split at h
    · rename_i d hd
      simp only [Option.some.injEq] at h
      rw [← h]
      exact tryDigits_spec neg m ex A dp nd d hd
    · exact ih (nd + 1) l h

theorem exactDec_spec (neg : Bool) (m ex : Nat) (h : F64.Canon (F64.fin neg m ex)) :
    ReadsBack neg m ex (exactDec neg m ex) := by
  unfold exactDec
  split
  · rename_i h1
    refine ⟨?_, rfl, rfl⟩
    simp only [Lit.toF64, le_refl, if_true, Bool.false_eq_true, if_false, Int.toNat_zero,
      pow_zero, Nat.mul_one]
    apply F64.roundQ_of_value neg _ 1 m ex (by norm_num) h
    have : ex = (ex - 1074) + 1074 := by omega
    conv_rhs => rw [this, pow_add]
    ring
  · rename_i h1
    refine ⟨?_, rfl, rfl⟩
    have hneg : ¬ (0 ≤ - ((1074 - ex : Nat) : Int)) := by omega
    have hk : (- - ((1074 - ex : Nat) : Int)).toNat = 1074 - ex := by omega
    simp only [Lit.toF64, hneg, if_false, Bool.false_eq_true, hk]
    apply F64.roundQ_of_value neg _ _ m ex (by positivity) h
    have h10 : (10 : Nat) ^ (1074 - ex) = 2 ^ (1074 - ex) * 5 ^ (1074 - ex) := by
      rw [← Nat.mul_pow]
    have h2 : (2 : Nat) ^ 1074 = 2 ^ ex * 2 ^ (1074 - ex) := by
      rw [← pow_add]; congr 1; omega
    rw [h10, h2]
    ring

theorem shortest_spec (neg : Bool) (m ex : Nat) (h : F64.Canon (F64.fin neg m ex)) :
    ReadsBack neg m ex (shortest neg m ex) := by
  unfold shortest
  cases hs : searchDigits neg m ex (m * 2 ^ ex) (decPoint (m * 2 ^ ex)) 17 1 with
  | none => exact exactDec_spec neg m ex h
  | some l => exact searchDigits_spec neg m ex _ _ 17 1 l hs

end GoApp

namespace GoApp

/-- A fraction that rounds to a finite float64 other than zero lies between half the
least positive float64 and `2^1025`. -/
theorem F64.roundQ_range (s s2 : Bool) (n d m ex : Nat) (hd : 0 < d)
    (h : F64.roundQ s n d = F64.fin s2 m ex) (hm : m ≠ 0) :
    d < 2 * (n * 2 ^ 1074) ∧ n * 2 ^ 1074 < 2 ^ 2099 * d := by
  unfold F64.roundQ at h
  simp only [] at h
  generalize hN : n * 2 ^ 1074 = N at h ⊢
  generalize he : F64.ilog2 (N / d) - 52 = e at h
  have hD : d ≤ d * 2 ^ e := Nat.le_mul_of_pos_right d (by positivity)
  constructor
  · -- the mantissa is not zero
    have hne : F64.nearestEven N (d * 2 ^ e) ≠ 0 := by
      intro h0
      rw [h0] at h
      have : (0 : Nat) ≠ 2 ^ 53 := by norm_num
      simp only [this, if_false] at h
      split at h
      · exact F64.noConfusion h
      · injection h with _ h2 _
        exact hm h2.symm
    unfold F64.nearestEven at hne
    simp only [] at hne
    by_cases hq : N / (d * 2 ^ e) = 0
    · rw [hq] at hne
      simp only [Nat.mul_zero, Nat.zero_add, Nat.one_mul, Nat.zero_mod] at hne
      have hlt : d * 2 ^ e < 2 * N := by
        by_contra hcon
        have : ¬ (d * 2 ^ e < 2 * N ∨ d * 2 ^ e = 2 * N ∧ (0 : Nat) = 1) := by
          intro h3
          rcases h3 with h3 | h3
          · exact hcon h3
          · exact absurd h3.2 (by norm_num)
        simp only [this, if_false] at hne
        exact hne rfl
      omega
    · have hpos : 0 < d * 2 ^ e := by positivity
      have : d * 2 ^ e ≤ N := by
        by_contra hcon
        exact hq (Nat.div_eq_of_lt (by omega))
      omega
  · -- the exponent is in range
    by_contra hcon
    have hge : 2 ^ 2099 ≤ N / d := by
      apply (Nat.le_div_iff_mul_le hd).mpr
      omega
    have hpos : 0 < N / d := lt_of_lt_of_le (Nat.two_pow_pos 2099) hge
    obtain ⟨_, hb⟩ := F64.ilog2_spec (N / d) hpos
    have hl : 2099 < F64.ilog2 (N / d) + 1 :=
      (Nat.pow_lt_pow_iff_right (by norm_num)).mp (lt_of_le_of_lt hge hb)
    have he2 : 2047 ≤ e := by omega
    by_cases h53 : F64.nearestEven N (d * 2 ^ e) = 2 ^ 53
    · have h1 : 2045 < e + 1 := by omega
      simp only [h53, if_true, h1] at h
      exact F64.noConfusion h
    · have h1 : 2045 < e := by omega
      simp only [h53, if_false, h1, if_true] at h
      exact F64.noConfusion h

end GoApp

namespace GoApp

theorem pow2_1025_lt : (2 : Nat) ^ 1025 < 10 ^ 309 := by decide!

theorem pow2_1075_lt : (2 : Nat) ^ 1075 < 10 ^ 324 := by decide!

theorem digits_pos_len (c L : Nat) (hc : 0 < c) (h : c < 10 ^ L) : 1 ≤ L := by
  rcases Nat.eq_zero_or_pos L with h0 | h0
  · subst h0
    rw [pow_zero] at h
    omega
  · exact h0

/-- The decimal that reads back as a finite float64 other than zero is not zero, and its
decimal point lies between -324 and 310. -/
theorem lit_bounds (l : Lit) (s : Bool) (m ex : Nat) (hhex : l.hex = false)
    (h : l.toF64 = F64.fin s m ex) (hm : m ≠ 0) :
    0 < l.mant ∧ -324 < l.exp + ((natDigits l.mant).length : Int) ∧
      l.exp + ((natDigits l.mant).length : Int) < 310 := by
  unfold Lit.toF64 at h
  simp only [hhex, Bool.false_eq_true, if_false] at h
  have hlow := natDigits_pow_le l.mant
  have hupp := natDigits_lt_pow l.mant
  generalize (natDigits l.mant).length = L at hlow hupp ⊢
  generalize l.mant = c at h hlow hupp ⊢
  have e1 : (2 : Nat) ^ 2099 = 2 ^ 1025 * 2 ^ 1074 := pow_add 2 1025 1074
  have hP : 0 < (2 : Nat) ^ 1074 := Nat.two_pow_pos 1074
  by_cases hexp : 0 ≤ l.exp
  · simp only [hexp, if_true] at h
    obtain ⟨h1, h2⟩ := F64.roundQ_range _ _ _ _ _ _ Nat.one_pos h hm
    have hE : l.exp = ((l.exp.toNat : Nat) : Int) := (Int.toNat_of_nonneg hexp).symm
    generalize l.exp.toNat = E at h1 h2 hE
    rw [e1, Nat.mul_one] at h2
    generalize (2 : Nat) ^ 1074 = P at h1 h2 hP
    have hc : 0 < c := by
      rcases Nat.eq_zero_or_pos c with h0 | h0
      · subst h0
        rw [Nat.zero_mul, Nat.zero_mul, Nat.mul_zero] at h1
        omega
      · exact h0
    have h3 : c * 10 ^ E < 2 ^ 1025 := Nat.lt_of_mul_lt_mul_right h2
    have h4 : 10 ^ (L - 1) * 10 ^ E ≤ c * 10 ^ E := Nat.mul_le_mul_right _ (hlow hc)
    have h5 : 10 ^ (L - 1 + E) < 10 ^ 309 := by
      rw [pow_add]
      exact lt_of_le_of_lt h4 (lt_trans h3 pow2_1025_lt)
    have h6 : L - 1 + E < 309 := (Nat.pow_lt_pow_iff_right (by norm_num)).mp h5
    have hL := digits_pos_len c L hc hupp
    refine ⟨hc, ?_, ?_⟩ <;> omega
  · simp only [hexp, if_false] at h
    obtain ⟨h1, h2⟩ := F64.roundQ_range _ _ _ _ _ _ (by positivity) h hm
    have hE : l.exp = - (((- l.exp).toNat : Nat) : Int) := by omega
    generalize (- l.exp).toNat = E at h1 h2 hE
    have e2 : (2 : Nat) ^ 1075 = 2 * 2 ^ 1074 := by
      rw [pow_succ, Nat.mul_comm]
    rw [e1] at h2
    generalize (2 : Nat) ^ 1074 = P at h1 h2 hP e2
    have hc : 0 < c := by
      rcases Nat.eq_zero_or_pos c with h0 | h0
      · subst h0
        rw [Nat.zero_mul, Nat.mul_zero] at h1
        exact absurd h1 (Nat.not_lt_zero _)
      · exact h0
    have hL := digits_pos_len c L hc hupp
    -- upper bound
    have h3 : 10 ^ (L - 1) * P < 2 ^ 1025 * 10 ^ E * P := by
      calc 10 ^ (L - 1) * P ≤ c * P := Nat.mul_le_mul_right _ (hlow hc)
        _ < 2 ^ 1025 * P * 10 ^ E := h2
        _ = 2 ^ 1025 * 10 ^ E * P := by ring
    have h4 : 10 ^ (L - 1) < 2 ^ 1025 * 10 ^ E := Nat.lt_of_mul_lt_mul_right h3
    have h5 : 10 ^ (L - 1) < 10 ^ (309 + E) := by
      rw [pow_add]
      exact lt_of_lt_of_le h4 (Nat.mul_le_mul_right _ (le_of_lt pow2_1025_lt))
    have h6 : L - 1 < 309 + E := (Nat.pow_lt_pow_iff_right (by norm_num)).mp h5
    -- lower bound
    have h7 : 10 ^ E < 10 ^ L * 10 ^ 324 := by
      calc 10 ^ E < 2 * (c * P) := h1
        _ = c * (2 * P) := by ring
        _ ≤ 10 ^ L * (2 * P) := Nat.mul_le_mul_right _ (le_of_lt hupp)
        _ = 10 ^ L * 2 ^ 1075 := by rw [e2]
        _ ≤ 10 ^ L * 10 ^ 324 := Nat.mul_le_mul_left _ (le_of_lt pow2_1075_lt)
    have h8 : E < L + 324 := by
      rw [← pow_add] at h7
      exact (Nat.pow_lt_pow_iff_right (by norm_num)).mp h7
    refine ⟨hc, ?_, ?_⟩ <;> omega

end GoApp

namespace GoApp

theorem lit_eta (l : Lit) (s : Bool) (e : Int) (hn : l.neg = s) (hh : l.hex = false)
    (he : e = l.exp) : (⟨s, false, l.mant, e⟩ : Lit) = l := by
  cases l
  simp only [Lit.mk.injEq] at *
  simp [hn, hh, he]

/-- The text written for a finite float64 other than zero, in either form, is read back
as that float64. -/
theorem parse_written (s : Bool) (m ex : Nat) (h : F64.Canon (F64.fin s m ex)) (hm : m ≠ 0)
    (pad : Bool) :
    ParseFloat (String.mk (fmtE pad s (digitsOf s m ex))) = some (F64.fin s m ex) ∧
    ParseFloat (String.mk (fmtF s (digitsOf s m ex))) = some (F64.fin s m ex) := by
  obtain ⟨hr, hn, hh⟩ := shortest_spec s m ex h
  obtain ⟨hc, hlo, hhi⟩ := lit_bounds (shortest s m ex) s m ex hh hr hm
  simp only [digitsOf, hm, if_false]
  generalize shortest s m ex = l at hr hn hh hc hlo hhi
  have heta : (⟨s, false, l.mant, l.exp + ((natDigits l.mant).length : Int) -
      ((natDigits l.mant).length : Int)⟩ : Lit) = l :=
    lit_eta l s _ hn hh (by omega)
  constructor
  · obtain ⟨h1, h2⟩ := read_fmtE pad s l.mant (l.exp + ((natDigits l.mant).length : Int)) hc
      (by omega)
    rw [heta] at h2
    exact parse_of_read _ l s m ex h1 h2 hr
  · obtain ⟨h1, l2, h2, h3⟩ := read_fmtF s l.mant (l.exp + ((natDigits l.mant).length : Int)) hc
    rw [heta] at h3
    exact parse_of_read _ l2 s m ex h1 h2 (h3.trans hr)

/-- Reading back the `%v` form of a float64 gives the float64. -/
theorem parse_fmtV (f : F64) (h : F64.Canon f) : ParseFloat (fmtV f) = some f := by
  cases f with
  | nan => decide!
  | inf b => cases b <;> decide!
  | fin s m ex =>
    by_cases hm : m = 0
    · subst hm
      have hex : ex = 0 := ((F64.canon_fin s 0 ex).mp h).2.2 (by norm_num)
      subst hex
      cases s <;> decide!
    · obtain ⟨h1, h2⟩ := parse_written s m ex h hm true
      unfold fmtV
      simp only []
      split
      · exact h1
      · exact h2

/-- The JSON text of a finite float64 is read back as that float64. -/
theorem jsonNumber_jsonFloat (s : Bool) (m ex : Nat) (h : F64.Canon (F64.fin s m ex)) :
    ∃ t, jsonFloat (F64.fin s m ex) = some t ∧ jsonNumber t = some (F64.fin s m ex) := by
  by_cases hm : m = 0
  · subst hm
    have hex : ex = 0 := ((F64.canon_fin s 0 ex).mp h).2.2 (by norm_num)
    subst hex
    cases s
    · exact ⟨"0", by decide!, by decide!⟩
    · exact ⟨"-0", by decide!, by decide!⟩
  · obtain ⟨h1, h2⟩ := parse_written s m ex h hm false
    unfold jsonFloat
    simp only []
    refine ⟨_, rfl, ?_⟩
    have hp : ParseFloat (String.mk (if m ≠ 0 ∧ (magLt (F64.fin s m ex) (F64.ofDec false 1 6) ∨
        ¬ magLt (F64.fin s m ex) (F64.ofNat (10 ^ 21))) then fmtE false s (digitsOf s m ex)
        else fmtF s (digitsOf s m ex))) = some (F64.fin s m ex) := by
      split
      · exact h1
      · exact h2
    unfold jsonNumber
    rw [hp]

/-- The `%v` form tells float64 values apart. -/
theorem fmtV_injective (f g : F64) (hf : F64.Canon f) (hg : F64.Canon g)
    (h : fmtV f = fmtV g) : f = g := by
  have h1 := parse_fmtV f hf
  have h2 := parse_fmtV g hg
  rw [h, h2] at h1
  exact (Option.some.inj h1).symm

end GoApp

/-! ## The values the program computes are float64 values -/

namespace GoApp

theorem F64.div_canon (a b : F64) : F64.Canon (F64.div a b) := by
  cases a with
  | nan => cases b <;> exact F64.canon_nan
  | inf sa =>
    cases b with
    | nan => exact F64.canon_nan
    | inf sb => exact F64.canon_nan
    | fin sb mb eb => exact F64.canon_inf _
  | fin sa ma ea =>
    cases b with
    | nan => exact F64.canon_nan
    | inf sb => exact F64.canon_zero _
    | fin sb mb eb =>
      show F64.Canon (if mb = 0 then (if ma = 0 then F64.nan else F64.inf (xor sa sb))
        else F64.roundQ (xor sa sb) (ma * 2 ^ ea) (mb * 2 ^ eb))
      by_cases hb : mb = 0
      · rw [if_pos hb]
        by_cases ha : ma = 0
        · rw [if_pos ha]; exact F64.canon_nan
        · rw [if_neg ha]; exact F64.canon_inf _
      · rw [if_neg hb]
        exact F64.roundQ_canon _ _ _

theorem RoundResult_canon (r : F64) : F64.Canon (RoundResult r) :=
  F64.div_canon _ _

theorem Lit.toF64_canon (l : Lit) : F64.Canon l.toF64 := by
  unfold Lit.toF64
  by_cases h : 0 ≤ l.exp
  · simp only [h, if_true]
    exact F64.roundQ_canon _ _ _
  · simp only [h, if_false]
    exact F64.roundQ_canon _ _ _

theorem map_inf_canon (o : Option Nat) (g : Nat → Nat) (b : Bool) (v : F64) (n : Nat)
    (h : o.map (fun k => (F64.inf b, g k)) = some (v, n)) : F64.Canon v := by
  cases o with
  | none => exact absurd h (by simp)
  | some k =>
    simp only [Option.map_some', Option.some.injEq, Prod.mk.injEq] at h
    rw [← h.1]
    exact F64.canon_inf b

theorem special_canon (s : List Char) (v : F64) (n : Nat) (h : special s = some (v, n)) :
    F64.Canon v := by
  unfold special at h
  split at h
  · exact absurd h (by simp)
  · split_ifs at h
    · exact map_inf_canon _ _ _ v n h
    · exact map_inf_canon _ _ _ v n h
    · exact map_inf_canon _ (fun k => k) _ v n h
    · simp only [Option.some.injEq, Prod.mk.injEq] at h
      rw [← h.1]
      exact F64.canon_nan

/-- Every value that `ParseFloat` returns is a float64 value. -/
theorem ParseFloat_canon (s : String) (f : F64) (h : ParseFloat s = some f) : F64.Canon f := by
  unfold ParseFloat at h
  split at h
  · rename_i v n hs
    split at h
    · simp only [Option.some.injEq] at h
      rw [← h]
      exact special_canon _ v n hs
    · exact absurd h (by simp)
  · split at h
    · exact absurd h (by simp)
    · rename_i l hl
      split at h
      · rename_i neg m ex hf
        simp only [Option.some.injEq] at h
        rw [← h, ← hf]
        exact Lit.toF64_canon l
      · exact absurd h (by simp)

end GoApp

/-! ## JSON round trip -/

namespace GoApp

theorem jsonFloat_some (f : F64) (t : String) (hc : F64.Canon f) (h : jsonFloat f = some t) :
    jsonNumber t = some f ∧ f.isFinite = true := by
  cases f with
  | nan => exact absurd h (by simp [jsonFloat])
  | inf b => exact absurd h (by simp [jsonFloat])
  | fin s m ex =>
    obtain ⟨t2, h1, h2⟩ := jsonNumber_jsonFloat s m ex hc
    rw [h1] at h
    simp only [Option.some.injEq] at h
    rw [← h]
    exact ⟨h2, rfl⟩

theorem jsonFloat_finite (f : F64) (h : f.isFinite = true) : ∃ t, jsonFloat f = some t := by
  cases f with
  | nan => exact absurd h (by simp [F64.isFinite])
  | inf b => exact absurd h (by simp [F64.isFinite])
  | fin s m ex => exact ⟨_, rfl⟩

theorem jsonFloat_none (f : F64) (h : f.isFinite = false) : jsonFloat f = none := by
  cases f with
  | nan => rfl
  | inf b => rfl
  | fin s m ex => exact absurd h (by simp [F64.isFinite])

/-- What `json.Marshal` writes, `json.Unmarshal` reads back as the same record. -/
theorem json_roundtrip (r : ResponseData) (b : JsonObject) (hc : r.Canon)
    (h : jsonMarshal r = some b) : jsonUnmarshal b = some r ∧ r.Finite := by
  obtain ⟨hx, hy, ha⟩ := hc
  unfold jsonMarshal at h
  cases h1 : jsonFloat r.X with
  | none => rw [h1] at h; exact absurd h (by simp)
  | some tx =>
    cases h2 : jsonFloat r.Y with
    | none => rw [h1, h2] at h; exact absurd h (by simp)
    | some ty =>
      cases h3 : jsonFloat r.Answer with
      | none => rw [h1, h2, h3] at h; exact absurd h (by simp)
      | some ta =>
        rw [h1, h2, h3] at h
        simp only [Option.some.injEq] at h
        obtain ⟨px, fx⟩ := jsonFloat_some r.X tx hx h1
        obtain ⟨py, fy⟩ := jsonFloat_some r.Y ty hy h2
        obtain ⟨pa, fa⟩ := jsonFloat_some r.Answer ta ha h3
        refine ⟨?_, fx, fy, fa⟩
        rw [← h]
        unfold jsonUnmarshal
        simp only [px, py, pa]

/-- Marshalling succeeds on the records whose numbers are finite. -/
theorem jsonMarshal_finite (r : ResponseData) (h : r.Finite) : ∃ b, jsonMarshal r = some b := by
  obtain ⟨hx, hy, ha⟩ := h
  obtain ⟨tx, h1⟩ := jsonFloat_finite r.X hx
  obtain ⟨ty, h2⟩ := jsonFloat_finite r.Y hy
  obtain ⟨ta, h3⟩ := jsonFloat_finite r.Answer ha
  exact ⟨⟨r.Action, tx, ty, ta, r.Cached⟩, by simp [jsonMarshal, h1, h2, h3]⟩

theorem jsonMarshal_not_finite (r : ResponseData) (h : ¬ r.Finite) : jsonMarshal r = none := by
  unfold ResponseData.Finite at h
  unfold jsonMarshal
  by_cases hx : r.X.isFinite = true
  · by_cases hy : r.Y.isFinite = true
    · have ha : r.Answer.isFinite = false := by
        cases hh : r.Answer.isFinite
        · rfl
        · exact absurd ⟨hx, hy, hh⟩ h
      rw [jsonFloat_none r.Answer ha]
      cases jsonFloat r.X <;> cases jsonFloat r.Y <;> rfl
    · have hy2 : r.Y.isFinite = false := by simpa using hy
      rw [jsonFloat_none r.Y hy2]
      cases jsonFloat r.X <;> rfl
  · have hx2 : r.X.isFinite = false := by simpa using hx
    rw [jsonFloat_none r.X hx2]

theorem jsonMarshal_cached (r : ResponseData) (b : JsonObject) (c : Bool)
    (h : jsonMarshal r = some b) :
    jsonMarshal { r with Cached := c } = some { b with Cached := c } := by
  unfold jsonMarshal at h ⊢
  cases h1 : jsonFloat r.X with
  | none => rw [h1] at h; exact absurd h (by simp)
  | some tx =>
    cases h2 : jsonFloat r.Y with
    | none => rw [h1, h2] at h; exact absurd h (by simp)
    | some ty =>
      cases h3 : jsonFloat r.Answer with
      | none => rw [h1, h2, h3] at h; exact absurd h (by simp)
      | some ta =>
        rw [h1, h2, h3] at h
        simp only [Option.some.injEq] at h
        rw [← h]

end GoApp

/-! ## The steps of a handler -/

namespace GoApp

theorem GenerateKey_eq (r : ResponseData) : r.GenerateKey = keyOf r.Action r.X r.Y := rfl

/-- A miss whose record can be marshalled: the record is stored and returned. -/
theorem serve_miss (action : String) (f : F64 → F64 → F64) (st : State) (x y : F64)
    (tGet tSet : Nat) (b : JsonObject)
    (hget : st.cache.Get tGet (keyOf action x y) = Except.ok none)
    (hm : jsonMarshal (fresh action f x y) = some b) :
    serve action f st x y tGet tSet =
      ⟨⟨⟨st.cache.client.Set tSet (keyOf action x y) (Object.bytes b) cacheTTL⟩,
          fresh action f x y⟩, Outcome.ok b, [⟨action, x, y⟩]⟩ := by
  unfold serve
  simp only [GenerateKey_eq, hget]
  have hm2 : jsonMarshal ⟨action, x, y, f x y, false⟩ = some b := hm
  simp only [AppCache.Set, hm2, fresh]

/-- A miss whose record cannot be marshalled ends the process. -/
theorem serve_miss_fatal (action : String) (f : F64 → F64 → F64) (st : State) (x y : F64)
    (tGet tSet : Nat)
    (hget : st.cache.Get tGet (keyOf action x y) = Except.ok none)
    (hm : jsonMarshal (fresh action f x y) = none) :
    (serve action f st x y tGet tSet).outcome = Outcome.fatal ∧
      (serve action f st x y tGet tSet).calls = [⟨action, x, y⟩] := by
  unfold serve
  simp only [GenerateKey_eq, hget]
  have hm2 : jsonMarshal ⟨action, x, y, f x y, false⟩ = none := hm
  simp only [AppCache.Set, hm2, and_self]

/-- A hit: the stored record is returned with `Cached` true, the cache is left as it is. -/
theorem serve_hit (action : String) (f : F64 → F64 → F64) (st : State) (x y : F64)
    (tGet tSet : Nat) (b b2 : JsonObject) (r : ResponseData)
    (hget : st.cache.Get tGet (keyOf action x y) = Except.ok (some b))
    (hu : jsonUnmarshal b = some r)
    (hm : jsonMarshal { r with Cached := true } = some b2) :
    serve action f st x y tGet tSet =
      ⟨⟨st.cache, { r with Cached := true }⟩, Outcome.ok b2, []⟩ := by
  unfold serve
  simp only [GenerateKey_eq, hget, hu, hm]

/-- With operands that parse (and, for the division, a divisor other than zero) a handler
goes on to the shared part. -/
theorem handler_parsed (rt : Route) (st : State) (x y : String) (t1 t2 : Nat) (fx fy : F64)
    (hx : ParseFloat x = some fx) (hy : ParseFloat y = some fy)
    (hz : rt = Route.divide → fy.isZero = false) :
    rt.handler st x y t1 t2 = serve rt.action rt.op st fx fy t1 t2 := by
  cases rt
  · simp only [Route.handler, addHandler, hx, hy, Route.action, Route.op]
  · simp only [Route.handler, substractHandler, hx, hy, Route.action, Route.op]
  · simp only [Route.handler, multiplyHandler, hx, hy, Route.action, Route.op]
  · have := hz rfl
    simp [Route.handler, divideHandler, hx, hy, Route.action, Route.op, this]

/-- A handler whose operand X or Y does not parse, or whose divisor is zero, answers with
status 400 and leaves the state as it is, without computing. -/
theorem handler_rejects (rt : Route) (st : State) (x y : String) (t1 t2 : Nat)
    (h : ParseFloat x = none ∨ ParseFloat y = none ∨
      (rt = Route.divide ∧ ∃ fy, ParseFloat y = some fy ∧ fy.isZero = true)) :
    (∃ msg, (rt.handler st x y t1 t2).outcome = Outcome.badRequest msg) ∧
      (rt.handler st x y t1 t2).state = st ∧ (rt.handler st x y t1 t2).calls = [] := by
  rcases h with h | h | ⟨hrt, fy, hy, hz⟩
  · cases rt <;>
      simp [Route.handler, addHandler, substractHandler, multiplyHandler, divideHandler, h]
  · cases rt <;> cases hx : ParseFloat x <;>
      simp [Route.handler, addHandler, substractHandler, multiplyHandler, divideHandler, h, hx]
  · subst hrt
    cases hx : ParseFloat x <;>
      simp [Route.handler, divideHandler, hy, hz, hx]

end GoApp

/-! ## The cache key -/

namespace GoApp

theorem Plain.no_colon (s : List Char) (h : Plain s) : ':' ∉ s := by
  intro hc
  rcases h ':' hc with h1 | h1 | h1 | h1 | h1
  · exact absurd h1 (by decide)
  · exact absurd h1 (by decide)
  · exact absurd h1 (by decide)
  · exact absurd h1 (by decide)
  · exact absurd h1 (by decide)

theorem plain_signChars (neg : Bool) : Plain (signChars neg) := by
  cases neg
  · exact Plain.nil
  · exact Plain.cons _ _ (Or.inr (Or.inr (Or.inr (Or.inr rfl)))) Plain.nil

theorem plain_fmtE (pad neg : Bool) (ds : List Char) (dp : Int)
    (hds : ∀ c ∈ ds, c.isDigit = true) (hne : ds ≠ []) (hdp : (dp - 1).natAbs < 1000) :
    Plain (fmtE pad neg ⟨ds, dp⟩) := by
  unfold fmtE
  simp only [hne, if_false]
  apply Plain.append
  · apply Plain.append
    · exact plain_signChars neg
    · match ds, hne with
      | d0 :: tl, _ =>
        have hd0 : d0.isDigit = true := hds d0 (List.mem_cons_self d0 tl)
        have htl : ∀ x ∈ tl, x.isDigit = true := fun x hx => hds x (List.mem_cons_of_mem d0 hx)
        apply Plain.cons _ _ (Or.inl hd0)
        simp only [List.tail_cons]
        split
        · exact Plain.nil
        · exact Plain.cons _ _ (Or.inr (Or.inl rfl)) (Plain.digits tl htl)
  · exact Plain.cons _ _ (Or.inr (Or.inr (Or.inl rfl))) (plain_expText pad (dp - 1) hdp)

theorem plain_fmtF (neg : Bool) (ds : List Char) (dp : Int)
    (hds : ∀ c ∈ ds, c.isDigit = true) : Plain (fmtF neg ⟨ds, dp⟩) := by
  unfold fmtF
  simp only []
  apply Plain.append
  · apply Plain.append
    · exact plain_signChars neg
    · split
      · apply Plain.append
        · exact Plain.digits _ (fun c hc => hds c (List.mem_of_mem_take hc))
        · exact Plain.digits _ (zeros_isDigit _)
      · exact Plain.cons _ _ (Or.inl rfl) Plain.nil
  · split
    · apply Plain.cons _ _ (Or.inr (Or.inl rfl))
      apply Plain.append
      · exact Plain.digits _ (zeros_isDigit _)
      · exact Plain.digits _ (fun c hc => hds c (List.mem_of_mem_drop hc))
    · exact Plain.nil

/-- The `%v` form of a float64 holds no colon. -/
theorem fmtV_no_colon (f : F64) (h : F64.Canon f) : ':' ∉ (fmtV f).toList := by
  cases f with
  | nan => decide
  | inf b => cases b <;> decide
  | fin s m ex =>
    by_cases hm : m = 0
    · subst hm
      have hex : ex = 0 := ((F64.canon_fin s 0 ex).mp h).2.2 (by norm_num)
      subst hex
      cases s <;> decide!
    · obtain ⟨hr, hn, hh⟩ := shortest_spec s m ex h
      obtain ⟨hc, hlo, hhi⟩ := lit_bounds (shortest s m ex) s m ex hh hr hm
      apply Plain.no_colon
      unfold fmtV
      simp only [digitsOf, hm, if_false]
      split
      · exact plain_fmtE _ _ _ _ (natDigits_isDigit _) (natDigits_ne_nil _ hc) (by omega)
      · exact plain_fmtF _ _ _ (natDigits_isDigit _)

theorem split_colon (p1 p2 r1 r2 : List Char) (h1 : ':' ∉ p1) (h2 : ':' ∉ p2)
    (h : p1 ++ ':' :: r1 = p2 ++ ':' :: r2) : p1 = p2 ∧ r1 = r2 := by
  induction p1 generalizing p2 with
  | nil =>
    cases p2 with
    | nil => simp at h; exact ⟨rfl, h⟩
    | cons c cs =>
      simp only [List.nil_append, List.cons_append, List.cons.injEq] at h
      exact absurd (by rw [← h.1]; exact List.mem_cons_self _ _) h2
  | cons a as ih =>
    cases p2 with
    | nil =>
      simp only [List.nil_append, List.cons_append, List.cons.injEq] at h
      exact absurd (by rw [h.1]; exact List.mem_cons_self _ _) h1
    | cons c cs =>
      simp only [List.cons_append, List.cons.injEq] at h
      have := ih cs (fun hm => h1 (List.mem_cons_of_mem a hm))
        (fun hm => h2 (List.mem_cons_of_mem c hm)) h.2
      exact ⟨by rw [h.1, this.1], this.2⟩

theorem keyOf_toList (action : String) (x y : F64) :
    (keyOf action x y).toList =
      (fmtV x).toList ++ ':' :: (action.toList ++ ':' :: (fmtV y).toList) := by
  unfold keyOf
  simp only [String.toList, String.data_append, List.append_assoc]
  rfl

theorem action_no_colon (rt : Route) : ':' ∉ rt.action.toList := by
  cases rt <;> decide

theorem action_injective (rt1 rt2 : Route) (h : rt1.action = rt2.action) : rt1 = rt2 := by
  cases rt1 <;> cases rt2 <;> first | rfl | exact absurd h (by decide)

/-- Equal keys come from the same action and the same operands. -/
theorem keyOf_injective (rt1 rt2 : Route) (x1 y1 x2 y2 : F64)
    (hx1 : x1.Canon) (hy1 : y1.Canon) (hx2 : x2.Canon) (hy2 : y2.Canon)
    (h : keyOf rt1.action x1 y1 = keyOf rt2.action x2 y2) :
    rt1 = rt2 ∧ x1 = x2 ∧ y1 = y2 := by
  have hl := congrArg String.toList h
  rw [keyOf_toList, keyOf_toList] at hl
  obtain ⟨ha, hb⟩ := split_colon _ _ _ _ (fmtV_no_colon x1 hx1) (fmtV_no_colon x2 hx2) hl
  obtain ⟨hc, hd⟩ := split_colon _ _ _ _ (action_no_colon rt1) (action_no_colon rt2) hb
  refine ⟨action_injective rt1 rt2 (String.ext hc), ?_, ?_⟩
  · exact fmtV_injective x1 x2 hx1 hx2 (String.ext ha)
  · exact fmtV_injective y1 y2 hy1 hy2 (String.ext hd)

end GoApp

/-! ## The invariant of the cache -/

namespace GoApp

theorem op_canon (rt : Route) (x y : F64) : (rt.op x y).Canon := by
  cases rt <;> exact RoundResult_canon _

theorem fresh_canon (rt : Route) (x y : F64) (hx : x.Canon) (hy : y.Canon) :
    (fresh rt.action rt.op x y).Canon :=
  ⟨hx, hy, op_canon rt x y⟩

theorem Inv_init : Inv initState := by
  intro k item h
  exact absurd h (by simp [initState, InitCache])

theorem cacheTTL_pos : 0 < cacheTTL := by decide

theorem cacheTTL_ne : cacheTTL ≠ 0 := by decide

/-- The item that `Set` stores with the time to live of the handlers. -/
theorem Client.Set_items (c : Client) (now : Nat) (k : String) (x : Object) (k2 : String) :
    (c.Set now k x cacheTTL).items k2 =
      if k2 = k then some ⟨x, (now : Int) + cacheTTL⟩ else c.items k2 := by
  unfold Client.Set
  simp only [cacheTTL_ne, if_false, cacheTTL_pos, if_true]

/-- The shared part of the handlers leaves the cache as it is, or stores the marshalled
record of the request under its key. -/
theorem serve_cache (action : String) (f : F64 → F64 → F64) (st : State) (x y : F64)
    (t1 t2 : Nat) :
    (serve action f st x y t1 t2).state.cache = st.cache ∨
    ∃ b, jsonMarshal (fresh action f x y) = some b ∧
      (serve action f st x y t1 t2).state.cache =
        ⟨st.cache.client.Set t2 (keyOf action x y) (Object.bytes b) cacheTTL⟩ := by
  cases hget : st.cache.Get t1 (keyOf action x y) with
  | error e =>
    left
    unfold serve
    simp only [GenerateKey_eq, hget]
  | ok o =>
    cases o with
    | some b =>
      left
      unfold serve
      simp only [GenerateKey_eq, hget]
      cases jsonUnmarshal b with
      | none => rfl
      | some r =>
        simp only []
        cases jsonMarshal { r with Cached := true } <;> rfl
    | none =>
      cases hm : jsonMarshal (fresh action f x y) with
      | none =>
        left
        unfold serve
        simp only [GenerateKey_eq, hget]
        have hm2 : jsonMarshal ⟨action, x, y, f x y, false⟩ = none := hm
        simp only [AppCache.Set, hm2]
      | some b =>
        right
        refine ⟨b, rfl, ?_⟩
        rw [serve_miss action f st x y t1 t2 b hget hm]

theorem serve_inv (rt : Route) (st : State) (x y : F64) (t1 t2 : Nat) (hx : x.Canon)
    (hy : y.Canon) (h : Inv st) : Inv (serve rt.action rt.op st x y t1 t2).state := by
  rcases serve_cache rt.action rt.op st x y t1 t2 with hc | ⟨b, hm, hc⟩
  · intro k item hk
    rw [hc] at hk
    exact h k item hk
  · intro k item hk
    rw [hc] at hk
    simp only [Client.Set_items] at hk
    by_cases hkk : k = keyOf rt.action x y
    · simp only [hkk, if_true, Option.some.injEq] at hk
      rw [← hk]
      refine ⟨rt, x, y, b, hx, hy, hkk, hm, rfl, ?_⟩
      show (0 : Int) < (t2 : Int) + cacheTTL
      have := cacheTTL_pos
      omega
    · simp only [hkk, if_false] at hk
      exact h k item hk

theorem handler_inv (rt : Route) (st : State) (x y : String) (t1 t2 : Nat) (h : Inv st) :
    Inv (rt.handler st x y t1 t2).state := by
  cases hx : ParseFloat x with
  | none =>
    rw [(handler_rejects rt st x y t1 t2 (Or.inl hx)).2.1]
    exact h
  | some fx =>
    cases hy : ParseFloat y with
    | none =>
      rw [(handler_rejects rt st x y t1 t2 (Or.inr (Or.inl hy))).2.1]
      exact h
    | some fy =>
      by_cases hz : rt = Route.divide ∧ fy.isZero = true
      · rw [(handler_rejects rt st x y t1 t2 (Or.inr (Or.inr ⟨hz.1, fy, hy, hz.2⟩))).2.1]
        exact h
      · have hz2 : rt = Route.divide → fy.isZero = false := by
          intro hrt
          cases hh : fy.isZero
          · rfl
          · exact absurd ⟨hrt, hh⟩ hz
        rw [handler_parsed rt st x y t1 t2 fx fy hx hy hz2]
        exact serve_inv rt st fx fy t1 t2 (ParseFloat_canon x fx hx) (ParseFloat_canon y fy hy) h

/-- The invariant holds in every state the process can be in. -/
theorem Reachable.inv (st : State) (h : Reachable st) : Inv st := by
  induction h with
  | init => exact Inv_init
  | step st rq _ _ ih => exact handler_inv rq.route st rq.x rq.y rq.tGet rq.tSet ih

end GoApp

/-! ## Hits and misses -/

namespace GoApp

/-- What `AppCache.Get` returns in terms of the item of the key. -/
theorem AppCache.Get_item (r : AppCache) (now : Nat) (k : String) (item : Item) (b : JsonObject)
    (h : r.client.items k = some item) (hb : item.Object = Object.bytes b) :
    r.Get now k = if 0 < item.Expiration ∧ item.Expiration < (now : Int) then Except.ok none
      else Except.ok (some b) := by
  unfold AppCache.Get Client.Get
  simp only [h]
  by_cases hc : 0 < item.Expiration ∧ item.Expiration < (now : Int)
  · simp only [hc, and_self, if_true]
  · simp only [hc, if_false, hb]

theorem AppCache.Get_absent (r : AppCache) (now : Nat) (k : String)
    (h : r.client.items k = none) : r.Get now k = Except.ok none := by
  unfold AppCache.Get Client.Get
  simp only [h]

/-- Under the invariant `Get` returns no error, and a value it returns is the marshalled
record of the key. -/
theorem Inv.get (st : State) (h : Inv st) (now : Nat) (k : String) :
    st.cache.Get now k = Except.ok none ∨
    ∃ item b, st.cache.client.items k = some item ∧ item.Object = Object.bytes b ∧
      ¬ (item.Expiration < (now : Int)) ∧ st.cache.Get now k = Except.ok (some b) := by
  cases hi : st.cache.client.items k with
  | none => left; exact AppCache.Get_absent _ _ _ hi
  | some item =>
    obtain ⟨rt, x, y, b, _, _, _, _, hb, he⟩ := h k item hi
    rw [AppCache.Get_item st.cache now k item b hi hb]
    by_cases hexp : item.Expiration < (now : Int)
    · left
      simp [he, hexp]
    · right
      refine ⟨item, b, rfl, hb, hexp, ?_⟩
      simp [hexp]

/-- On a hit, under the invariant, the value found is the marshalled record of the
request, and the handler answers with it, `Cached` set. -/
theorem hit_response (rt : Route) (st : State) (x y : F64) (t1 t2 : Nat) (b : JsonObject)
    (h : Inv st) (hx : x.Canon) (hy : y.Canon)
    (hget : st.cache.Get t1 (keyOf rt.action x y) = Except.ok (some b)) :
    jsonMarshal (fresh rt.action rt.op x y) = some b ∧
    serve rt.action rt.op st x y t1 t2 =
      ⟨⟨st.cache, { fresh rt.action rt.op x y with Cached := true }⟩,
        Outcome.ok { b with Cached := true }, []⟩ := by
  rcases Inv.get st h t1 (keyOf rt.action x y) with hn | ⟨item, b2, hi, hb2, _, hg⟩
  · rw [hn] at hget
    exact absurd hget (by simp)
  · rw [hg] at hget
    simp only [Except.ok.injEq, Option.some.injEq] at hget
    subst hget
    obtain ⟨rt2, x2, y2, b3, hx2, hy2, hk, hm, hb3, _⟩ := h _ item hi
    rw [hb2] at hb3
    simp only [Object.bytes.injEq] at hb3
    subst hb3
    obtain ⟨e1, e2, e3⟩ := keyOf_injective rt rt2 x y x2 y2 hx hy hx2 hy2 hk
    subst e1 e2 e3
    refine ⟨hm, ?_⟩
    obtain ⟨hu, _⟩ := json_roundtrip _ b2 (fresh_canon rt x y hx hy) hm
    exact serve_hit rt.action rt.op st x y t1 t2 b2 _ _ hg hu
      (jsonMarshal_cached _ b2 true hm)

end GoApp

/-! ## The claims -/

namespace GoApp

/-- An integer of at most 53 bits is a float64. -/
theorem F64.roundQ_int (s : Bool) (k : Nat) (hk : k ≤ 2 ^ 52) :
    ∃ m ex, F64.roundQ s k 1 = F64.fin s m ex ∧ m * 2 ^ ex = k * 2 ^ 1074 := by
  rcases Nat.eq_zero_or_pos k with h0 | hpos
  · subst h0
    refine ⟨0, 0, ?_, by simp⟩
    exact F64.roundQ_of_value s 0 1 0 0 Nat.one_pos (F64.canon_zero s) (by simp)
  · obtain ⟨ha, hb⟩ := F64.ilog2_spec k hpos
    have hl : F64.ilog2 k ≤ 52 := by
      have : 2 ^ F64.ilog2 k < 2 ^ 53 := lt_of_le_of_lt ha (lt_of_le_of_lt hk (by norm_num))
      have := (Nat.pow_lt_pow_iff_right (by norm_num)).mp this
      omega
    generalize F64.ilog2 k = l at ha hb hl
    have hval : k * 2 ^ (52 - l) * 2 ^ (1022 + l) = k * 2 ^ 1074 := by
      rw [Nat.mul_assoc, ← pow_add]
      congr 2
      omega
    refine ⟨k * 2 ^ (52 - l), 1022 + l, ?_, hval⟩
    apply F64.roundQ_of_value s k 1 _ _ Nat.one_pos
    · rw [F64.canon_fin]
      have h52 : (2 : Nat) ^ 52 = 2 ^ l * 2 ^ (52 - l) := by
        rw [← pow_add]; congr 1; omega
      have h53 : (2 : Nat) ^ 53 = 2 ^ (l + 1) * 2 ^ (52 - l) := by
        rw [← pow_add]; congr 1; omega
      have hp : 0 < 2 ^ (52 - l) := Nat.two_pow_pos _
      refine ⟨?_, by omega, ?_⟩
      · rw [h53]
        exact Nat.mul_lt_mul_of_pos_right hb hp
      · intro hlt
        rw [h52] at hlt
        have := Nat.mul_le_mul_right (2 ^ (52 - l)) ha
        omega
    · rw [hval, Nat.mul_one]

/-- The integer that `math.Round` picks is at most one half away from the value, and the
larger of two nearest ones. -/
theorem F64.nearestInt_near (m ex : Nat) :
    2 * (F64.nearestInt m ex * 2 ^ 1074) ≤ 2 * (m * 2 ^ ex) + 2 ^ 1074 ∧
      2 * (m * 2 ^ ex) < 2 * (F64.nearestInt m ex * 2 ^ 1074) + 2 ^ 1074 := by
  unfold F64.nearestInt
  have e : (2 : Nat) ^ 1074 = 2 * 2 ^ 1073 := by
    rw [← pow_succ']
  generalize m * 2 ^ ex = A
  have h1 := Nat.div_mul_le_self (A + 2 ^ 1073) (2 ^ 1074)
  have h2 := Nat.lt_div_mul_add (a := A + 2 ^ 1073) (b := 2 ^ 1074) (Nat.two_pow_pos 1074)
  generalize (A + 2 ^ 1073) / 2 ^ 1074 = k at h1 h2 ⊢
  rw [e] at h1 h2 ⊢
  generalize (2 : Nat) ^ 1073 = P at h1 h2 ⊢
  constructor <;> omega

/-- The rounded value of a finite float64 is the float64 of its nearest integer. -/
theorem F64.round_exact (s : Bool) (m ex : Nat) (h : F64.Canon (F64.fin s m ex)) :
    ∃ m2 e2, F64.round (F64.fin s m ex) = F64.fin s m2 e2 ∧
      m2 * 2 ^ e2 = F64.nearestInt m ex * 2 ^ 1074 := by
  obtain ⟨h1, h2, h3⟩ := (F64.canon_fin s m ex).mp h
  show ∃ m2 e2, F64.roundQ s (F64.nearestInt m ex) 1 = F64.fin s m2 e2 ∧ _
  by_cases hex : 1074 ≤ ex
  · -- the value is an integer
    have hA : m * 2 ^ ex = m * 2 ^ (ex - 1074) * 2 ^ 1074 := by
      rw [Nat.mul_assoc, ← pow_add]; congr 2; omega
    have hk : F64.nearestInt m ex = m * 2 ^ (ex - 1074) := by
      unfold F64.nearestInt
      rw [hA]
      generalize m * 2 ^ (ex - 1074) = j
      have e : (2 : Nat) ^ 1074 = 2 * 2 ^ 1073 := by rw [← pow_succ']
      have hp : 0 < (2 : Nat) ^ 1073 := Nat.two_pow_pos 1073
      rw [e]
      generalize (2 : Nat) ^ 1073 = P at hp
      apply Nat.div_eq_of_lt_le
      · nlinarith
      · nlinarith
    refine ⟨m, ex, ?_, ?_⟩
    · rw [hk]
      exact F64.roundQ_of_value s _ 1 m ex Nat.one_pos h (by rw [← hA, Nat.mul_one])
    · rw [hk, ← hA]
  · -- the value lies below 2^53
    apply F64.roundQ_int
    unfold F64.nearestInt
    have hle : m * 2 ^ ex ≤ 2 ^ 53 * 2 ^ 1073 :=
      Nat.mul_le_mul (le_of_lt h1) (Nat.pow_le_pow_right (by norm_num) (by omega))
    have e : (2 : Nat) ^ 1074 = 2 * 2 ^ 1073 := by rw [← pow_succ']
    have e53 : (2 : Nat) ^ 53 = 2 * 2 ^ 52 := by rw [← pow_succ']
    have hp : 0 < (2 : Nat) ^ 1073 := Nat.two_pow_pos 1073
    rw [e]
    rw [e53] at hle
    generalize m * 2 ^ ex = A at hle
    generalize (2 : Nat) ^ 1073 = P at hle hp
    generalize (2 : Nat) ^ 52 = Q at hle
    have : (A + P) / (2 * P) < Q + 1 := by
      apply (Nat.div_lt_iff_lt_mul (by omega)).mpr
      nlinarith
    omega

end GoApp

namespace GoApp

theorem F64.mul_canon (a b : F64) : F64.Canon (F64.mul a b) := by
  cases a with
  | nan => cases b <;> exact F64.canon_nan
  | inf sa =>
    cases b with
    | nan => exact F64.canon_nan
    | inf sb => exact F64.canon_inf _
    | fin sb mb eb =>
      show F64.Canon (if mb = 0 then F64.nan else F64.inf (xor sa sb))
      by_cases hb : mb = 0
      · rw [if_pos hb]; exact F64.canon_nan
      · rw [if_neg hb]; exact F64.canon_inf _
  | fin sa ma ea =>
    cases b with
    | nan => exact F64.canon_nan
    | inf sb =>
      show F64.Canon (if ma = 0 then F64.nan else F64.inf (xor sa sb))
      by_cases ha : ma = 0
      · rw [if_pos ha]; exact F64.canon_nan
      · rw [if_neg ha]; exact F64.canon_inf _
    | fin sb mb eb =>
      unfold F64.mul
      exact F64.roundQ_canon _ _ _

theorem F64.div_fin_fin (sa sb : Bool) (ma ea mb eb : Nat) (h : mb ≠ 0) :
    F64.div (F64.fin sa ma ea) (F64.fin sb mb eb) =
      F64.roundQ (xor sa sb) (ma * 2 ^ ea) (mb * 2 ^ eb) := by
  show (if mb = 0 then (if ma = 0 then F64.nan else F64.inf (xor sa sb))
    else F64.roundQ (xor sa sb) (ma * 2 ^ ea) (mb * 2 ^ eb)) = _
  rw [if_neg h]

theorem ofNat_100 : F64.ofNat 100 = F64.fin false 7036874417766400 1028 := by decide!

theorem hundred_value : 7036874417766400 * 2 ^ 1028 = 100 * 2 ^ 1074 := by decide!

/-- The value of `RoundResult` where the float64 product with 100 is finite: the float64
nearest to k/100, k being the integer that `math.Round` picks for the product. -/
theorem RoundResult_of_product (r : F64) (s : Bool) (m ex : Nat)
    (hv : F64.mul r (F64.ofNat 100) = F64.fin s m ex) :
    RoundResult r = F64.roundQ s (F64.nearestInt m ex) 100 := by
  rw [ofNat_100] at hv
  have hcanon : F64.Canon (F64.fin s m ex) := by
    rw [← hv]
    exact F64.mul_canon _ _
  obtain ⟨m2, e2, hr, hval⟩ := F64.round_exact s m ex hcanon
  unfold RoundResult
  rw [ofNat_100, hv, hr]
  rw [F64.div_fin_fin _ _ _ _ _ _ (by norm_num), Bool.xor_false, hval, hundred_value]
  apply F64.roundQ_congr
  · exact Nat.mul_pos (by norm_num) (Nat.two_pow_pos 1074)
  · norm_num
  · ring

/-- C1, as the code has it: for all x and y for which the float64 product of the float64
sum x+y and 100 is finite, `Add(x,y)` is the float64 nearest to k/100 (ties to even), with
the sign of that product, where k is the integer nearest to the magnitude of the product,
halfway cases rounded away from zero; the same holds of `Subtract`, `Multiply` and
`Divide` with the float64 difference, product and quotient (a zero divisor has no finite
quotient). `k` is at most one half away from the product. On the vectors of
`main_test.go` the functions return exactly the expected float64: Add(4.2,8.1)=12.3,
Subtract(13.2,8.1)=5.1, Multiply(13.2,8.1)=106.92, Divide(13.2,8.1)=1.63 and
Divide(-6,9)=-0.67 among them. -/
theorem C1_arithmetic_rounds_to_two_places (x y : F64) :
    (∀ s m ex, F64.mul (F64.add x y) (F64.ofNat 100) = F64.fin s m ex →
      Add x y = F64.roundQ s (F64.nearestInt m ex) 100) ∧
    (∀ s m ex, F64.mul (F64.sub x y) (F64.ofNat 100) = F64.fin s m ex →
      Subtract x y = F64.roundQ s (F64.nearestInt m ex) 100) ∧
    (∀ s m ex, F64.mul (F64.mul x y) (F64.ofNat 100) = F64.fin s m ex →
      Multiply x y = F64.roundQ s (F64.nearestInt m ex) 100) ∧
    (∀ s m ex, F64.mul (F64.div x y) (F64.ofNat 100) = F64.fin s m ex →
      Divide x y = F64.roundQ s (F64.nearestInt m ex) 100) ∧
    (∀ m ex, 2 * (F64.nearestInt m ex * 2 ^ 1074) ≤ 2 * (m * 2 ^ ex) + 2 ^ 1074 ∧
      2 * (m * 2 ^ ex) < 2 * (F64.nearestInt m ex * 2 ^ 1074) + 2 ^ 1074) ∧
    Add (F64.ofNat 2) (F64.ofNat 3) = F64.ofNat 5 ∧
    Add (F64.ofDec false 42 1) (F64.ofDec false 81 1) = F64.ofDec false 123 1 ∧
    Add (F64.neg (F64.ofNat 6)) (F64.ofNat 9) = F64.ofNat 3 ∧
    Subtract (F64.ofNat 5) (F64.ofNat 3) = F64.ofNat 2 ∧
    Subtract (F64.ofDec false 132 1) (F64.ofDec false 81 1) = F64.ofDec false 51 1 ∧
    Subtract (F64.neg (F64.ofNat 6)) (F64.ofNat 9) = F64.neg (F64.ofNat 15) ∧
    Multiply (F64.ofNat 6) (F64.ofNat 3) = F64.ofNat 18 ∧
    Multiply (F64.ofDec false 132 1) (F64.ofDec false 81 1) = F64.ofDec false 10692 2 ∧
    Multiply (F64.neg (F64.ofNat 6)) (F64.ofNat 9) = F64.neg (F64.ofNat 54) ∧
    Divide (F64.ofNat 6) (F64.ofNat 3) = F64.ofNat 2 ∧
    Divide (F64.ofDec false 132 1) (F64.ofDec false 81 1) = F64.ofDec false 163 2 ∧
    Divide (F64.neg (F64.ofNat 6)) (F64.ofNat 9) = F64.ofDec true 67 2 :=
  ⟨fun s m ex h => RoundResult_of_product (F64.add x y) s m ex h,
    fun s m ex h => RoundResult_of_product (F64.sub x y) s m ex h,
    fun s m ex h => RoundResult_of_product (F64.mul x y) s m ex h,
    fun s m ex h => RoundResult_of_product (F64.div x y) s m ex h,
    F64.nearestInt_near,
    by decide!, by decide!, by decide!, by decide!, by decide!, by decide!,
    by decide!, by decide!, by decide!, by decide!, by decide!, by decide!⟩

/-- C1 witness: for x = 13.2 and y = 8.1 the four float64 products with 100 are finite, and
each function returns the float64 nearest to the hundredth picked for its product. -/
theorem C1_arithmetic_rounds_to_two_places_witness :
    (F64.mul (F64.add (F64.ofDec false 132 1) (F64.ofDec false 81 1)) (F64.ofNat 100) =
        F64.fin false 4683919534325759 1033 ∧
      Add (F64.ofDec false 132 1) (F64.ofDec false 81 1) =
        F64.roundQ false (F64.nearestInt 4683919534325759 1033) 100) ∧
    (F64.mul (F64.sub (F64.ofDec false 132 1) (F64.ofDec false 81 1)) (F64.ofNat 100) =
        F64.fin false 8972014882652159 1030 ∧
      Subtract (F64.ofDec false 132 1) (F64.ofDec false 81 1) =
        F64.roundQ false (F64.nearestInt 8972014882652159 1030) 100) ∧
    (F64.mul (F64.mul (F64.ofDec false 132 1) (F64.ofDec false 81 1)) (F64.ofNat 100) =
        F64.fin false 5877989162090495 1035 ∧
      Multiply (F64.ofDec false 132 1) (F64.ofDec false 81 1) =
        F64.roundQ false (F64.nearestInt 5877989162090495 1035) 100) ∧
    (F64.mul (F64.div (F64.ofDec false 132 1) (F64.ofDec false 81 1)) (F64.ofNat 100) =
        F64.fin false 5733749525587437 1029 ∧
      Divide (F64.ofDec false 132 1) (F64.ofDec false 81 1) =
        F64.roundQ false (F64.nearestInt 5733749525587437 1029) 100) :=
  ⟨⟨by decide!, (C1_arithmetic_rounds_to_two_places (F64.ofDec false 132 1)
      (F64.ofDec false 81 1)).1 false 4683919534325759 1033 (by decide!)⟩,
    ⟨by decide!, (C1_arithmetic_rounds_to_two_places (F64.ofDec false 132 1)
      (F64.ofDec false 81 1)).2.1 false 8972014882652159 1030 (by decide!)⟩,
    ⟨by decide!, (C1_arithmetic_rounds_to_two_places (F64.ofDec false 132 1)
      (F64.ofDec false 81 1)).2.2.1 false 5877989162090495 1035 (by decide!)⟩,
    ⟨by decide!, (C1_arithmetic_rounds_to_two_places (F64.ofDec false 132 1)
      (F64.ofDec false 81 1)).2.2.2.1 false 5733749525587437 1029 (by decide!)⟩⟩

/-- C1 counterexample: 2.675 and 0 are finite and their float64 sum is the float64 2.675,
which lies between 2.67 and 2.675 and less than 0.005 from 2.67, so that the sum rounded
to 2 decimal places is 2.67; `Add(2.675, 0)` is the float64 2.68, which is another
float64 than 2.67. And 1e154 and 1e153 are finite with the finite float64 product 1e307,
while `Multiply(1e154, 1e153)` is +Inf. -/
theorem C1_counterexample :
    (F64.ofDec false 2675 3).isFinite = true ∧ (F64.ofNat 0).isFinite = true ∧
    F64.add (F64.ofDec false 2675 3) (F64.ofNat 0) = F64.ofDec false 2675 3 ∧
    267 * 2 ^ 1074 ≤ 100 * (F64.ofDec false 2675 3).num ∧
    2 * (100 * (F64.ofDec false 2675 3).num - 267 * 2 ^ 1074) < 2 ^ 1074 ∧
    Add (F64.ofDec false 2675 3) (F64.ofNat 0) = F64.ofDec false 268 2 ∧
    F64.ofDec false 268 2 ≠ F64.ofDec false 267 2 ∧
    (F64.ofNat (10 ^ 154)).isFinite = true ∧ (F64.ofNat (10 ^ 153)).isFinite = true ∧
    F64.mul (F64.ofNat (10 ^ 154)) (F64.ofNat (10 ^ 153)) = F64.ofNat (10 ^ 307) ∧
    (F64.ofNat (10 ^ 307)).isFinite = true ∧
    Multiply (F64.ofNat (10 ^ 154)) (F64.ofNat (10 ^ 153)) = F64.inf false := by
  refine ⟨by decide!, by decide!, by decide!, by decide!, by decide!, by decide!, by decide!,
    by decide!, by decide!, by decide!, by decide!, by decide!⟩

/-- C2, as the code has it: for every r whose product with 100 is finite, `RoundResult(r)`
is the float64 nearest to k/100 (ties to even), with the sign of the product, where k is
the integer nearest to the magnitude of the float64 product r*100, halfway cases rounded
away from zero; in particular RoundResult(0.125) = 0.13 and RoundResult(-0.125) = -0.13.
`k` is at most one half away from the product. -/
theorem C2_RoundResult_nearest_hundredth (r : F64) (s : Bool) (m ex : Nat)
    (hv : F64.mul r (F64.ofNat 100) = F64.fin s m ex) :
    RoundResult r = F64.roundQ s (F64.nearestInt m ex) 100 ∧
    2 * (F64.nearestInt m ex * 2 ^ 1074) ≤ 2 * (m * 2 ^ ex) + 2 ^ 1074 ∧
    2 * (m * 2 ^ ex) < 2 * (F64.nearestInt m ex * 2 ^ 1074) + 2 ^ 1074 ∧
    RoundResult (F64.ofDec false 125 3) = F64.ofDec false 13 2 ∧
    RoundResult (F64.ofDec true 125 3) = F64.ofDec true 13 2 := by
  exact ⟨RoundResult_of_product r s m ex hv, (F64.nearestInt_near m ex).1,
    (F64.nearestInt_near m ex).2, by decide!, by decide!⟩

/-- C2 witness: 0.125 * 100 is the float64 12.5, and RoundResult(0.125) is the float64
nearest to 13/100. -/
theorem C2_RoundResult_nearest_hundredth_witness :
    F64.mul (F64.ofDec false 125 3) (F64.ofNat 100) = F64.fin false 7036874417766400 1025 ∧
    RoundResult (F64.ofDec false 125 3) = F64.roundQ false (F64.nearestInt 7036874417766400 1025) 100 :=
  ⟨by decide!, (C2_RoundResult_nearest_hundredth (F64.ofDec false 125 3) false
    7036874417766400 1025 (by decide!)).1⟩

/-- C2 counterexample: 1.1 is finite and `RoundResult(1.1)` is the float64 1.1, whose
hundredfold is not an integer, neither exactly nor as the float64 product (which is not
110); `RoundResult(2.675)` is the float64 2.68, more than 0.005 above the float64
2.675; and `RoundResult(1e307)` is +Inf. -/
theorem C2_counterexample :
    (F64.ofDec false 11 1).isFinite = true ∧
    RoundResult (F64.ofDec false 11 1) = F64.ofDec false 11 1 ∧
    (100 * (RoundResult (F64.ofDec false 11 1)).num) % 2 ^ 1074 ≠ 0 ∧
    F64.mul (RoundResult (F64.ofDec false 11 1)) (F64.ofNat 100) ≠ F64.ofNat 110 ∧
    F64.round (F64.mul (RoundResult (F64.ofDec false 11 1)) (F64.ofNat 100)) ≠
      F64.mul (RoundResult (F64.ofDec false 11 1)) (F64.ofNat 100) ∧
    RoundResult (F64.ofDec false 2675 3) = F64.ofDec false 268 2 ∧
    2 ^ 1074 < 200 * ((RoundResult (F64.ofDec false 2675 3)).num - (F64.ofDec false 2675 3).num) ∧
    (F64.ofNat (10 ^ 307)).isFinite = true ∧
    RoundResult (F64.ofNat (10 ^ 307)) = F64.inf false := by
  refine ⟨by decide!, by decide!, by decide!, by decide!, by decide!, by decide!, by decide!,
    by decide!, by decide!⟩

end GoApp

namespace GoApp

theorem jsonMarshal_fields (r : ResponseData) (b : JsonObject) (h : jsonMarshal r = some b) :
    b.Action = r.Action ∧ b.Cached = r.Cached ∧ jsonFloat r.X = some b.X ∧
      jsonFloat r.Y = some b.Y ∧ jsonFloat r.Answer = some b.Answer := by
  unfold jsonMarshal at h
  cases h1 : jsonFloat r.X with
  | none => rw [h1] at h; exact absurd h (by simp)
  | some tx =>
    cases h2 : jsonFloat r.Y with
    | none => rw [h1, h2] at h; exact absurd h (by simp)
    | some ty =>
      cases h3 : jsonFloat r.Answer with
      | none => rw [h1, h2, h3] at h; exact absurd h (by simp)
      | some ta =>
        rw [h1, h2, h3] at h
        simp only [Option.some.injEq] at h
        rw [← h]
        exact ⟨rfl, rfl, rfl, rfl, rfl⟩

/-- The item stored by a miss is found again until its time to live has passed. -/
theorem get_after_set (c : Client) (t2 t3 : Nat) (k : String) (b : JsonObject)
    (h : (t3 : Int) ≤ (t2 : Int) + cacheTTL) :
    AppCache.Get ⟨c.Set t2 k (Object.bytes b) cacheTTL⟩ t3 k = Except.ok (some b) := by
  have hi : (c.Set t2 k (Object.bytes b) cacheTTL).items k =
      some ⟨Object.bytes b, (t2 : Int) + cacheTTL⟩ := by
    rw [Client.Set_items]
    simp
  rw [AppCache.Get_item ⟨c.Set t2 k (Object.bytes b) cacheTTL⟩ t3 k _ b hi rfl]
  have : ¬ ((0 : Int) < (t2 : Int) + cacheTTL ∧ (t2 : Int) + cacheTTL < (t3 : Int)) := by
    intro hc
    omega
  simp only [this, if_false]

/-- C3, as the code has it: for each of the four handlers and every pair of operands that
the handler accepts and whose answer op(x,y) is finite like the operands, if the cache
holds no live entry for the key of the request, the request issued twice, the second
time no later than 60 seconds after the first was stored, is answered both times with
status 200 and the same body, whose Answer reads as op(x,y), but for Cached, which is
false in the first response and true in the second. -/
theorem C3_second_request_within_ttl_is_cached (rt : Route) (st : State) (x y : String)
    (fx fy : F64) (t1 t2 t3 t4 : Nat)
    (hx : ParseFloat x = some fx) (hy : ParseFloat y = some fy)
    (hz : rt = Route.divide → fy.isZero = false)
    (hfin : (fresh rt.action rt.op fx fy).Finite)
    (hmiss : st.cache.Get t1 (keyOf rt.action fx fy) = Except.ok none)
    (hwin : (t3 : Int) ≤ (t2 : Int) + cacheTTL) :
    ∃ b, (rt.handler st x y t1 t2).outcome = Outcome.ok b ∧ b.Cached = false ∧
      jsonNumber b.Answer = some (rt.op fx fy) ∧
      (rt.handler (rt.handler st x y t1 t2).state x y t3 t4).outcome =
        Outcome.ok { b with Cached := true } := by
  obtain ⟨b, hm⟩ := jsonMarshal_finite _ hfin
  have hcx := ParseFloat_canon x fx hx
  have hcy := ParseFloat_canon y fy hy
  have hfirst := serve_miss rt.action rt.op st fx fy t1 t2 b hmiss hm
  obtain ⟨_, hcached, _, _, hans⟩ := jsonMarshal_fields _ b hm
  obtain ⟨hu, _⟩ := json_roundtrip _ b (fresh_canon rt fx fy hcx hcy) hm
  refine ⟨b, ?_, hcached, ?_, ?_⟩
  · rw [handler_parsed rt st x y t1 t2 fx fy hx hy hz, hfirst]
  · exact (jsonFloat_some _ _ (op_canon rt fx fy) hans).1
  · rw [handler_parsed rt st x y t1 t2 fx fy hx hy hz, hfirst]
    rw [handler_parsed rt _ x y t3 t4 fx fy hx hy hz]
    rw [serve_hit rt.action rt.op _ fx fy t3 t4 b { b with Cached := true }
      (fresh rt.action rt.op fx fy)
      (get_after_set st.cache.client t2 t3 _ b hwin) hu (jsonMarshal_cached _ b true hm)]

/-- C3 witness: `/add?x=2&y=3` on the empty cache, stored at time 200 and repeated at time
300: Answer 5 both times, Cached false and then true. -/
theorem C3_second_request_within_ttl_is_cached_witness :
    ∃ b, (addHandler initState "2" "3" 100 200).outcome = Outcome.ok b ∧ b.Cached = false ∧
      jsonNumber b.Answer = some (Add (F64.ofNat 2) (F64.ofNat 3)) ∧
      (addHandler (addHandler initState "2" "3" 100 200).state "2" "3" 300 400).outcome =
        Outcome.ok { b with Cached := true } :=
  C3_second_request_within_ttl_is_cached Route.add initState "2" "3" (F64.ofNat 2) (F64.ofNat 3)
    100 200 300 400 (by decide!) (by decide!) (fun h => Route.noConfusion h)
    ⟨by decide!, by decide!, by decide!⟩ (AppCache.Get_absent _ _ _ (by decide!)) (by decide)

/-- C3 counterexample: `/add?x=1e308&y=1e308` on the empty cache: both operands parse to
finite numbers, the cache holds no entry for the key, and the first request is not
answered: the handler ends in `log.Fatal`. -/
theorem C3_counterexample :
    ParseFloat "1e308" = some (F64.ofNat (10 ^ 308)) ∧
    (F64.ofNat (10 ^ 308)).isFinite = true ∧
    initState.cache.client.items
      (keyOf actionAdd (F64.ofNat (10 ^ 308)) (F64.ofNat (10 ^ 308))) = none ∧
    (addHandler initState "1e308" "1e308" 0 0).outcome = Outcome.fatal :=
  ⟨by decide!, by decide!, by decide!, by decide!⟩

end GoApp

namespace GoApp

/-- The shared part of the handlers calls the arithmetic function at most once, with the
operands of the request. -/
theorem serve_calls (action : String) (f : F64 → F64 → F64) (st : State) (x y : F64)
    (t1 t2 : Nat) : ∀ c ∈ (serve action f st x y t1 t2).calls, c = ⟨action, x, y⟩ := by
  intro c hc
  unfold serve at hc
  simp only [] at hc
  split at hc
  · exact absurd hc (List.not_mem_nil c)
  · split at hc
    · exact absurd hc (List.not_mem_nil c)
    · split at hc <;> exact absurd hc (List.not_mem_nil c)
  · split at hc
    · exact List.mem_singleton.mp hc
    · split at hc <;> exact List.mem_singleton.mp hc

/-- C4 at the failing inputs: with x=Inf, or with x=NaN, `addHandler` does not answer
with status 400: the operand parses, `Add` is called, and the handler ends in
`log.Fatal`; so do the other three handlers. A missing x, and x=foo, are answered with
status 400. -/
theorem C4_infinity_and_nan_are_not_rejected :
    ParseFloat "Inf" = some (F64.inf false) ∧ ParseFloat "NaN" = some F64.nan ∧
    (addHandler initState "Inf" "3" 0 0).outcome = Outcome.fatal ∧
    (addHandler initState "Inf" "3" 0 0).calls = [⟨actionAdd, F64.inf false, F64.ofNat 3⟩] ∧
    (addHandler initState "NaN" "3" 0 0).outcome = Outcome.fatal ∧
    (addHandler initState "NaN" "3" 0 0).calls = [⟨actionAdd, F64.nan, F64.ofNat 3⟩] ∧
    (substractHandler initState "Inf" "3" 0 0).outcome = Outcome.fatal ∧
    (multiplyHandler initState "3" "NaN" 0 0).outcome = Outcome.fatal ∧
    (divideHandler initState "3" "Inf" 0 0).outcome = Outcome.fatal ∧
    (addHandler initState "" "3" 0 0).outcome =
      Outcome.badRequest "Missing/wrong format for key parameter X" ∧
    (addHandler initState "foo" "3" 0 0).outcome =
      Outcome.badRequest "Missing/wrong format for key parameter X" :=
  ⟨by decide!, by decide!, by decide!, by decide!, by decide!, by decide!, by decide!,
    by decide!, by decide!, by decide!, by decide!⟩

/-- C5: a request to the divide handler whose y parses to a zero (as "0", "0.0" and "-0"
do) is answered with status 400, and the state, the cache with it, is left as it was;
and whenever the divide handler calls `Divide`, the divisor is not equal to zero. -/
theorem C5_divide_rejects_zero_divisor (st : State) (x y : String) (t1 t2 : Nat) (fy : F64)
    (hy : ParseFloat y = some fy) (hzero : F64.eq fy (F64.fin false 0 0) = true) :
    (∃ msg, (divideHandler st x y t1 t2).outcome = Outcome.badRequest msg) ∧
    (divideHandler st x y t1 t2).state = st ∧
    (divideHandler st x y t1 t2).calls = [] ∧
    (∀ (st2 : State) (x2 y2 : String) (t3 t4 : Nat), ∀ c ∈ (divideHandler st2 x2 y2 t3 t4).calls,
      c.action = actionDivide ∧ F64.eq c.y (F64.fin false 0 0) = false) ∧
    (∃ z, ParseFloat "0" = some z ∧ F64.eq z (F64.fin false 0 0) = true) ∧
    (∃ z, ParseFloat "0.0" = some z ∧ F64.eq z (F64.fin false 0 0) = true) ∧
    (∃ z, ParseFloat "-0" = some z ∧ F64.eq z (F64.fin false 0 0) = true) := by
  have hr := handler_rejects Route.divide st x y t1 t2
    (Or.inr (Or.inr ⟨rfl, fy, hy, hzero⟩))
  refine ⟨hr.1, hr.2.1, hr.2.2, ?_, ⟨F64.fin false 0 0, by decide!, by decide!⟩,
    ⟨F64.fin false 0 0, by decide!, by decide!⟩, ⟨F64.fin true 0 0, by decide!, by decide!⟩⟩
  intro st2 x2 y2 t3 t4 c hc
  change c ∈ (Route.divide.handler st2 x2 y2 t3 t4).calls at hc
  cases hx2 : ParseFloat x2 with
  | none =>
    rw [(handler_rejects Route.divide st2 x2 y2 t3 t4 (Or.inl hx2)).2.2] at hc
    exact absurd hc (List.not_mem_nil c)
  | some fx2 =>
    cases hy2 : ParseFloat y2 with
    | none =>
      rw [(handler_rejects Route.divide st2 x2 y2 t3 t4 (Or.inr (Or.inl hy2))).2.2] at hc
      exact absurd hc (List.not_mem_nil c)
    | some fy2 =>
      cases hz2 : F64.isZero fy2 with
      | true =>
        rw [(handler_rejects Route.divide st2 x2 y2 t3 t4
          (Or.inr (Or.inr ⟨rfl, fy2, hy2, hz2⟩))).2.2] at hc
        exact absurd hc (List.not_mem_nil c)
      | false =>
        rw [handler_parsed Route.divide st2 x2 y2 t3 t4 fx2 fy2 hx2 hy2 (fun _ => hz2)] at hc
        rw [serve_calls _ _ _ _ _ _ _ c hc]
        exact ⟨rfl, hz2⟩

/-- C5 witness: `/divide?x=6&y=0` on the empty cache. -/
theorem C5_divide_rejects_zero_divisor_witness :
    (∃ msg, (divideHandler initState "6" "0" 0 0).outcome = Outcome.badRequest msg) ∧
    (divideHandler initState "6" "0" 0 0).state = initState :=
  let h := C5_divide_rejects_zero_divisor initState "6" "0" 0 0 (F64.fin false 0 0)
    (by decide!) (by decide!)
  ⟨h.1, h.2.1⟩

/-- C9 at the failing input: `/multiply?x=1e200&y=1e200` on the empty cache, a state the
process can be in: both operands are finite, the product overflows to +Inf, which
`json.Marshal` refuses in `AppCache.Set`, and the handler ends in `log.Fatal` instead of
a response. -/
theorem C9_overflow_reaches_fatal :
    Reachable initState ∧
    ParseFloat "1e200" = some (F64.ofNat (10 ^ 200)) ∧
    (F64.ofNat (10 ^ 200)).isFinite = true ∧
    Multiply (F64.ofNat (10 ^ 200)) (F64.ofNat (10 ^ 200)) = F64.inf false ∧
    jsonMarshal (fresh actionMultiply Multiply (F64.ofNat (10 ^ 200)) (F64.ofNat (10 ^ 200))) = none ∧
    (multiplyHandler initState "1e200" "1e200" 0 0).outcome = Outcome.fatal :=
  ⟨Reachable.init, by decide!, by decide!, by decide!, by decide!, by decide!⟩

end GoApp

namespace GoApp

/-- C6: `GenerateKey` is free of collisions: two records whose actions are among add,
subtract, multiply and divide and whose keys are equal have the same action, and their
X and their Y have the same `%v` form (and so are the same float64); no `%v` form of an
operand holds the colon that joins the parts; and the keys of (2,add,3), (3,add,2) and
(2,subtract,3) are pairwise distinct. -/
theorem C6_GenerateKey_collision_free (r1 r2 : ResponseData) (rt1 rt2 : Route)
    (ha1 : r1.Action = rt1.action) (ha2 : r2.Action = rt2.action)
    (hx1 : r1.X.Canon) (hy1 : r1.Y.Canon) (hx2 : r2.X.Canon) (hy2 : r2.Y.Canon)
    (h : r1.GenerateKey = r2.GenerateKey) :
    r1.Action = r2.Action ∧ fmtV r1.X = fmtV r2.X ∧ fmtV r1.Y = fmtV r2.Y ∧
    r1.X = r2.X ∧ r1.Y = r2.Y ∧
    ':' ∉ (fmtV r1.X).toList ∧ ':' ∉ (fmtV r1.Y).toList ∧
    (⟨actionAdd, F64.ofNat 2, F64.ofNat 3, F64.ofNat 5, false⟩ : ResponseData).GenerateKey
      = "2:add:3" ∧
    (⟨actionAdd, F64.ofNat 3, F64.ofNat 2, F64.ofNat 5, false⟩ : ResponseData).GenerateKey
      = "3:add:2" ∧
    (⟨actionSubtract, F64.ofNat 2, F64.ofNat 3, F64.neg (F64.ofNat 1), false⟩ :
      ResponseData).GenerateKey = "2:subtract:3" ∧
    "2:add:3" ≠ "3:add:2" ∧ "2:add:3" ≠ "2:subtract:3" ∧ "3:add:2" ≠ "2:subtract:3" := by
  rw [GenerateKey_eq, GenerateKey_eq, ha1, ha2] at h
  obtain ⟨e1, e2, e3⟩ := keyOf_injective rt1 rt2 r1.X r1.Y r2.X r2.Y hx1 hy1 hx2 hy2 h
  refine ⟨by rw [ha1, ha2, e1], by rw [e2], by rw [e3], e2, e3, fmtV_no_colon _ hx1,
    fmtV_no_colon _ hy1, by decide!, by decide!, by decide!, by decide, by decide, by decide⟩

/-- C6 witness: the records of `/add?x=2&y=3` before and after the answer is computed
have the same key, the same action and the same operands. -/
theorem C6_GenerateKey_collision_free_witness :
    (⟨actionAdd, F64.ofNat 2, F64.ofNat 3, F64.fin false 0 0, false⟩ : ResponseData).Action =
      (⟨actionAdd, F64.ofNat 2, F64.ofNat 3, F64.ofNat 5, true⟩ : ResponseData).Action :=
  (C6_GenerateKey_collision_free
    ⟨actionAdd, F64.ofNat 2, F64.ofNat 3, F64.fin false 0 0, false⟩
    ⟨actionAdd, F64.ofNat 2, F64.ofNat 3, F64.ofNat 5, true⟩ Route.add Route.add rfl rfl
    (by decide!) (by decide!) (by decide!) (by decide!) (by decide!)).1

/-- How the shared part of the handlers can end with status 200: with a stored record,
`Cached` set, or with the freshly marshalled record, which it has stored. -/
theorem serve_ok (action : String) (f : F64 → F64 → F64) (st : State) (x y : F64)
    (t1 t2 : Nat) (b : JsonObject) (h : (serve action f st x y t1 t2).outcome = Outcome.ok b) :
    b.Cached = true ∨
    (st.cache.Get t1 (keyOf action x y) = Except.ok none ∧
      jsonMarshal (fresh action f x y) = some b) := by
  cases hget : st.cache.Get t1 (keyOf action x y) with
  | error e =>
    unfold serve at h
    simp only [GenerateKey_eq, hget] at h
    exact absurd h (by simp)
  | ok o =>
    cases o with
    | some b0 =>
      left
      unfold serve at h
      simp only [GenerateKey_eq, hget] at h
      cases hu : jsonUnmarshal b0 with
      | none => rw [hu] at h; exact absurd h (by simp)
      | some r =>
        rw [hu] at h
        simp only [] at h
        cases hm : jsonMarshal { r with Cached := true } with
        | none => rw [hm] at h; exact absurd h (by simp)
        | some b1 =>
          rw [hm] at h
          simp only [Outcome.ok.injEq] at h
          rw [← h]
          exact (jsonMarshal_fields _ b1 hm).2.1
    | none =>
      right
      refine ⟨rfl, ?_⟩
      cases hm : jsonMarshal (fresh action f x y) with
      | none =>
        have := (serve_miss_fatal action f st x y t1 t2 hget hm).1
        rw [this] at h
        exact absurd h (by simp)
      | some b1 =>
        rw [serve_miss action f st x y t1 t2 b1 hget hm] at h
        simp only [Outcome.ok.injEq] at h
        rw [h]

end GoApp

namespace GoApp

theorem AppCache.Set_ok (c : AppCache) (now : Nat) (k : String) (v : ResponseData) (ttl : Int)
    (b : JsonObject) (h : jsonMarshal v = some b) :
    c.Set now k v ttl = Except.ok ⟨c.client.Set now k (Object.bytes b) ttl⟩ := by
  unfold AppCache.Set
  simp only [h]

theorem Client.Set_items_pos (c : Client) (now : Nat) (k : String) (x : Object) (d : Int)
    (hd : 0 < d) : (c.Set now k x d).items k = some ⟨x, (now : Int) + d⟩ := by
  unfold Client.Set
  have hne : d ≠ 0 := by omega
  simp only [hne, if_false, hd, if_true]

/-- C7: an expired entry is never returned. When a handler has answered a request with a
freshly computed record (Cached false), it has stored the record under the key of the
request with an expiration 60 seconds after the time t2 of the store; in that state, and
in every later state in which the key has not been stored again (its item, if still
there, is that one), `AppCache.Get` at any time later than t2 + 60s returns absent with
no error, and the same request is answered by computing the answer again, with the same
body, Cached false. -/
theorem C7_expired_entry_is_not_returned (rt : Route) (st st2 : State) (x y : String)
    (fx fy : F64) (t1 t2 t3 t4 : Nat) (b : JsonObject)
    (hx : ParseFloat x = some fx) (hy : ParseFloat y = some fy)
    (hz : rt = Route.divide → fy.isZero = false)
    (hstored : (rt.handler st x y t1 t2).outcome = Outcome.ok b) (hfresh : b.Cached = false)
    (hkeep : ∀ item, st2.cache.client.items (keyOf rt.action fx fy) = some item →
      item = ⟨Object.bytes b, (t2 : Int) + cacheTTL⟩)
    (hlate : (t2 : Int) + cacheTTL < (t3 : Int)) :
    (rt.handler st x y t1 t2).state.cache.client.items (keyOf rt.action fx fy) =
      some ⟨Object.bytes b, (t2 : Int) + cacheTTL⟩ ∧
    (rt.handler st x y t1 t2).state.cache.Get t3 (keyOf rt.action fx fy) = Except.ok none ∧
    st2.cache.Get t3 (keyOf rt.action fx fy) = Except.ok none ∧
    (rt.handler st2 x y t3 t4).outcome = Outcome.ok b ∧
    (rt.handler st2 x y t3 t4).calls = [⟨rt.action, fx, fy⟩] := by
  have hp := handler_parsed rt st x y t1 t2 fx fy hx hy hz
  rw [hp] at hstored
  rcases serve_ok _ _ _ _ _ _ _ b hstored with hc | ⟨hget, hm⟩
  · rw [hfresh] at hc
    exact absurd hc (by simp)
  · have hexp : ∀ (c : AppCache) (item : Item),
        c.client.items (keyOf rt.action fx fy) = some item →
        item = ⟨Object.bytes b, (t2 : Int) + cacheTTL⟩ →
        c.Get t3 (keyOf rt.action fx fy) = Except.ok none := by
      intro c item hi he
      rw [AppCache.Get_item c t3 _ item b hi (by rw [he])]
      have : 0 < item.Expiration ∧ item.Expiration < (t3 : Int) := by
        rw [he]
        have := cacheTTL_pos
        constructor
        · show (0 : Int) < (t2 : Int) + cacheTTL
          omega
        · exact hlate
      simp only [this, and_self, if_true]
    have hitem : (rt.handler st x y t1 t2).state.cache.client.items (keyOf rt.action fx fy) =
        some ⟨Object.bytes b, (t2 : Int) + cacheTTL⟩ := by
      rw [hp, serve_miss rt.action rt.op st fx fy t1 t2 b hget hm]
      exact Client.Set_items_pos _ _ _ _ _ cacheTTL_pos
    have hget2 : st2.cache.Get t3 (keyOf rt.action fx fy) = Except.ok none := by
      cases hi : st2.cache.client.items (keyOf rt.action fx fy) with
      | none => exact AppCache.Get_absent _ _ _ hi
      | some item => exact hexp st2.cache item hi (hkeep item hi)
    refine ⟨hitem, hexp _ _ hitem rfl, hget2, ?_, ?_⟩
    · rw [handler_parsed rt st2 x y t3 t4 fx fy hx hy hz,
        serve_miss rt.action rt.op st2 fx fy t3 t4 b hget2 hm]
    · rw [handler_parsed rt st2 x y t3 t4 fx fy hx hy hz,
        serve_miss rt.action rt.op st2 fx fy t3 t4 b hget2 hm]

/-- C7 witness: `/add?x=2&y=3` stored at time 200 on the empty cache; in the state it
leaves, the repetition one nanosecond after the 60 seconds is computed again. -/
theorem C7_expired_entry_is_not_returned_witness :
    (addHandler (addHandler initState "2" "3" 100 200).state "2" "3" 60000000201
      60000000300).outcome = Outcome.ok ⟨"add", "2", "3", "5", false⟩ :=
  (C7_expired_entry_is_not_returned Route.add initState
    (addHandler initState "2" "3" 100 200).state "2" "3" (F64.ofNat 2) (F64.ofNat 3)
    100 200 60000000201 60000000300 ⟨"add", "2", "3", "5", false⟩
    (by decide!) (by decide!) (fun h => Route.noConfusion h) (by decide!) rfl
    (fun item hi => Option.some.inj (hi.symm.trans (by decide!))) (by decide)).2.2.2.1

/-- C8: the cache round trip. For every key, every record whose numbers are float64
values and every ttl above zero, if `AppCache.Set` succeeds then `AppCache.Get` of the key,
at any time up to the expiration, returns a value with no error, and unmarshalling
that value gives back the record in all its fields; and `Get` of a key that was never
set returns absent with no error. -/
theorem C8_cache_round_trip (c c2 : AppCache) (k : String) (v : ResponseData) (ttl : Int)
    (now t : Nat) (hv : v.Canon) (httl : 0 < ttl)
    (hset : c.Set now k v ttl = Except.ok c2) (ht : (t : Int) ≤ (now : Int) + ttl) :
    (∃ b, c2.Get t k = Except.ok (some b) ∧ jsonUnmarshal b = some v) ∧
    (∀ (c3 : AppCache) (k3 : String) (t3 : Nat), c3.client.items k3 = none →
      c3.Get t3 k3 = Except.ok none) := by
  refine ⟨?_, fun c3 k3 t3 h3 => AppCache.Get_absent c3 t3 k3 h3⟩
  cases hm : jsonMarshal v with
  | none =>
    unfold AppCache.Set at hset
    simp only [hm] at hset
    exact absurd hset (by simp)
  | some b =>
    rw [AppCache.Set_ok c now k v ttl b hm] at hset
    simp only [Except.ok.injEq] at hset
    refine ⟨b, ?_, (json_roundtrip v b hv hm).1⟩
    rw [← hset]
    rw [AppCache.Get_item ⟨c.client.Set now k (Object.bytes b) ttl⟩ t k _ b
      (Client.Set_items_pos c.client now k _ ttl httl) rfl]
    have : ¬ ((0 : Int) < (now : Int) + ttl ∧ (now : Int) + ttl < (t : Int)) := by
      intro hc
      omega
    simp only [this, if_false]

/-- C8 witness: the record of `/add?x=2&y=3` set at time 0 for 60 seconds and read at
time 5. -/
theorem C8_cache_round_trip_witness :
    ∃ b, AppCache.Get ⟨InitCache.client.Set 0 "2:add:3"
        (Object.bytes ⟨"add", "2", "3", "5", false⟩) cacheTTL⟩ 5 "2:add:3" = Except.ok (some b) ∧
      jsonUnmarshal b = some ⟨"add", F64.ofNat 2, F64.ofNat 3, F64.ofNat 5, false⟩ :=
  (C8_cache_round_trip InitCache _ "2:add:3" ⟨"add", F64.ofNat 2, F64.ofNat 3, F64.ofNat 5, false⟩
    cacheTTL 0 5 ⟨by decide!, by decide!, by decide!⟩ (by decide)
    (AppCache.Set_ok InitCache 0 "2:add:3" _ cacheTTL ⟨"add", "2", "3", "5", false⟩ (by decide!))
    (by decide)).1

end GoApp

namespace GoApp

/-- C10: the invariant of the cache content. In every state that the process reaches from
the empty cache by requests to the four handlers, every entry of the cache (live or not),
stored under a key k, is a byte value that unmarshals to a record r with Cached false,
`GenerateKey` of r equal to k, and Answer the value of the function of r's action at X
and Y; hence a request that hits the cache is answered with the record that a miss
would have computed and marshalled for it, with Cached true. -/
theorem C10_cache_content_invariant (st : State) (h : Reachable st) :
    (∀ k item, st.cache.client.items k = some item →
      ∃ b r rt, item.Object = Object.bytes b ∧ jsonUnmarshal b = some r ∧ r.Cached = false ∧
        r.GenerateKey = k ∧ r.Action = Route.action rt ∧ r.Answer = Route.op rt r.X r.Y) ∧
    (∀ (rt : Route) (x y : String) (fx fy : F64) (t1 t2 : Nat) (b : JsonObject),
      ParseFloat x = some fx → ParseFloat y = some fy →
      (rt = Route.divide → fy.isZero = false) →
      st.cache.Get t1 (keyOf rt.action fx fy) = Except.ok (some b) →
      jsonMarshal (fresh rt.action rt.op fx fy) = some b ∧
        (rt.handler st x y t1 t2).outcome = Outcome.ok { b with Cached := true } ∧
        (rt.handler st x y t1 t2).calls = []) := by
  have hinv := Reachable.inv st h
  constructor
  · intro k item hi
    obtain ⟨rt, x, y, b, hx, hy, hk, hm, hb, _⟩ := hinv k item hi
    obtain ⟨hu, _⟩ := json_roundtrip _ b (fresh_canon rt x y hx hy) hm
    exact ⟨b, fresh rt.action rt.op x y, rt, hb, hu, rfl, hk.symm, rfl, rfl⟩
  · intro rt x y fx fy t1 t2 b hx hy hz hget
    obtain ⟨hm, hs⟩ := hit_response rt st fx fy t1 t2 b hinv (ParseFloat_canon x fx hx)
      (ParseFloat_canon y fy hy) hget
    rw [handler_parsed rt st x y t1 t2 fx fy hx hy hz, hs]
    exact ⟨hm, rfl, rfl⟩

/-- C10 witness: the state after `/add?x=2&y=3` on the empty cache; its entry under
"2:add:3" unmarshals to the record of that request. -/
theorem C10_cache_content_invariant_witness :
    ∃ b r rt, (⟨Object.bytes ⟨"add", "2", "3", "5", false⟩, 60000000200⟩ : Item).Object =
        Object.bytes b ∧ jsonUnmarshal b = some r ∧ r.Cached = false ∧
      r.GenerateKey = "2:add:3" ∧ r.Action = Route.action rt ∧ r.Answer = Route.op rt r.X r.Y :=
  (C10_cache_content_invariant _
    (Reachable.step initState ⟨Route.add, "2", "3", 100, 200⟩ Reachable.init (by decide!))).1
    "2:add:3" ⟨Object.bytes ⟨"add", "2", "3", "5", false⟩, 60000000200⟩ (by decide!)

/-- With operands that parse to finite numbers and a finite answer, a handler answers
with status 200 in every state the process can be in; with operands that parse and a
number that is not finite among the operands and the answer, it ends the process. -/
theorem handler_fatal_iff (rt : Route) (st : State) (x y : String) (fx fy : F64)
    (t1 t2 : Nat) (h : Reachable st)
    (hx : ParseFloat x = some fx) (hy : ParseFloat y = some fy)
    (hz : rt = Route.divide → fy.isZero = false) :
    (rt.handler st x y t1 t2).outcome = Outcome.fatal ↔
      ¬ (fresh rt.action rt.op fx fy).Finite := by
  have hinv := Reachable.inv st h
  rw [handler_parsed rt st x y t1 t2 fx fy hx hy hz]
  rcases Inv.get st hinv t1 (keyOf rt.action fx fy) with hn | ⟨item, b, hi, hb, _, hg⟩
  · by_cases hf : (fresh rt.action rt.op fx fy).Finite
    · obtain ⟨b, hm⟩ := jsonMarshal_finite _ hf
      rw [serve_miss rt.action rt.op st fx fy t1 t2 b hn hm]
      simp [hf]
    · have hm := jsonMarshal_not_finite _ hf
      simp [(serve_miss_fatal rt.action rt.op st fx fy t1 t2 hn hm).1, hf]
  · obtain ⟨hm, hs⟩ := hit_response rt st fx fy t1 t2 b hinv (ParseFloat_canon x fx hx)
      (ParseFloat_canon y fy hy) hg
    obtain ⟨_, hf⟩ := json_roundtrip _ b (fresh_canon rt fx fy (ParseFloat_canon x fx hx)
      (ParseFloat_canon y fy hy)) hm
    rw [hs]
    simp [hf]

end GoApp
